import Mathlib

/-!
# prune: closure of used packages and pruning of the vendor tree

A shallow embedding of `prune.go` and `util/util.go`.

* Go strings are Lean `String`s read through their character list (`String.data`);
  every identifier and path of the program is ASCII, so `len` is the number of
  characters.
* `util.Packages` (`map[string]bool` whose values are always `true`) is a
  `Finset String`.
* A slice expression that Go would reject at run time (a panic) is `none`.
* The file system, the Go parser and the outcome of system calls are explicit
  parameters (oracles) of the functions that use them.
-/

set_option maxRecDepth 100000

namespace Prune

/-! ## Part 1. Definitions -/

/-! ### Go strings and the library functions used by the program -/

/-- The Go builtin `len(s)`. -/
def len (s : String) : Nat := s.data.length

/-- The Go slice expression `s[lo:hi]`; `none` when the bounds are out of range
(Go panics). The indices are integers because `strings.LastIndex` may give `-1`. -/
def slice (s : String) (lo hi : Int) : Option String :=
  if 0 ≤ lo ∧ lo ≤ hi ∧ hi ≤ (len s : Int) then
    some ⟨(s.data.drop lo.toNat).take (hi.toNat - lo.toNat)⟩
  else none

/-- The Go slice expression `s[lo:]`. -/
def sliceFrom (s : String) (lo : Int) : Option String := slice s lo (len s)

/-- The function `strings.HasPrefix`. -/
def hasPrefix (s pre : String) : Bool := pre.data.isPrefixOf s.data

/-- The function `strings.HasSuffix`. -/
def hasSuffix (s suf : String) : Bool := suf.data.isSuffixOf s.data

/-- Index of the last occurrence of the character `c`, or `-1`. -/
def lastIndexChars (c : Char) : List Char → Int
  | [] => -1
  | x :: xs =>
    if 0 ≤ lastIndexChars c xs then lastIndexChars c xs + 1
    else if x = c then 0 else -1

/-- The call `strings.LastIndex(s, "/")`. -/
def lastIndexSlash (s : String) : Int := lastIndexChars '/' s.data

/-- Pieces of a character list between occurrences of `c` (never empty). -/
def splitChars (c : Char) : List Char → List (List Char)
  | [] => [[]]
  | x :: xs =>
    if x = c then [] :: splitChars c xs
    else
      match splitChars c xs with
      | [] => [[x]]
      | seg :: rest => (x :: seg) :: rest

/-- The call `strings.Split(s, sep)` for a one-character separator. -/
def split (s : String) (sep : Char) : List String :=
  (splitChars sep s.data).map String.mk

/-- The call `strings.Contains(s, ".")`. -/
def containsDot (s : String) : Bool := s.data.contains '.'

/-- The function `unicode.IsSpace`, by code point: the Unicode property White_Space,
that is U+0009 to U+000D, U+0020, U+0085, U+00A0, U+1680, U+2000 to U+200A,
U+2028, U+2029, U+202F, U+205F and U+3000. -/
def isSpace (c : Char) : Bool :=
  (9 ≤ c.toNat && c.toNat ≤ 13) || c.toNat = 32 || c.toNat = 133 || c.toNat = 160 ||
    c.toNat = 5760 || (8192 ≤ c.toNat && c.toNat ≤ 8202) || c.toNat = 8232 ||
    c.toNat = 8233 || c.toNat = 8239 || c.toNat = 8287 || c.toNat = 12288

/-- The function `strings.TrimSpace`: leading and trailing white space removed. -/
def trimSpace (s : String) : String :=
  ⟨((s.data.dropWhile isSpace).reverse.dropWhile isSpace).reverse⟩

/-- The element loop of `filepath.Clean`: `stack` holds the kept elements, last one
first. Empty elements and `.` are dropped; `..` removes the element before it,
is dropped at the root of a rooted path and is kept at the start of a relative
one. -/
def cleanSegs (rooted : Bool) : List (List Char) → List (List Char) → List (List Char)
  | stack, [] => stack.reverse
  | stack, seg :: rest =>
    if seg = [] ∨ seg = ['.'] then cleanSegs rooted stack rest
    else if seg = ['.', '.'] then
      match stack with
      | [] => if rooted then cleanSegs rooted [] rest else cleanSegs rooted [seg] rest
      | top :: below =>
        if top = ['.', '.'] then cleanSegs rooted (seg :: stack) rest
        else cleanSegs rooted below rest
    else cleanSegs rooted (seg :: stack) rest

/-- The elements of a path joined by `/`. -/
def joinSegs : List (List Char) → List Char
  | [] => []
  | [seg] => seg
  | seg :: rest => seg ++ '/' :: joinSegs rest

/-- The function `filepath.Clean` (also `path.Clean`) for slash-separated paths. -/
def filepathClean (p : String) : String :=
  let rooted := p.data.head? = some '/'
  let segs := cleanSegs rooted [] (splitChars '/' p.data)
  if rooted then ⟨'/' :: joinSegs segs⟩
  else if segs = [] then "." else ⟨joinSegs segs⟩

/-- The call `filepath.Join(a, b)`: the elements from the first non-empty one on
are joined by `/` and cleaned; the result is empty when both are empty. -/
def filepathJoin (a b : String) : String :=
  if a ≠ "" then filepathClean (a ++ "/" ++ b)
  else if b ≠ "" then filepathClean b
  else ""

/-- The first result of `path.Split`: everything up to and including the final
slash. -/
def pathSplitDir (p : String) : String :=
  ⟨p.data.take (lastIndexSlash p + 1).toNat⟩

/-- The function `filepath.Dir`: the cleaned text before the last element. -/
def filepathDir (p : String) : String := filepathClean (pathSplitDir p)

/-! ### `util.Packages` and `parentPackages` -/

/-- The type `util.Packages`. -/
abbrev Packages := Finset String

/-- One turn of the loop body of `parentPackages` after the insertion:
`p, _ = path.Split(p)` followed by the removal of one trailing slash. -/
def parentStep (p : String) : String :=
  let d := pathSplitDir p
  if 0 < len d ∧ d.data.getLast? = some '/' then ⟨d.data.dropLast⟩ else d

/-- The loop of `parentPackages`. Every turn shortens `p`, so `len p` turns are
always enough; `fuel` counts them. -/
def parentPackagesLoop (lenRoot : Nat) : Nat → String → Packages → Packages
  | 0, _, r => r
  | fuel + 1, p, r =>
    if len p > lenRoot then parentPackagesLoop lenRoot fuel (parentStep p) (insert p r)
    else r

/-- The function `parentPackages(root, p)`. -/
def parentPackages (root p : String) : Packages :=
  parentPackagesLoop (len root) (len p) p ∅

/-! ### The file tree and `filepath.Walk` -/

/-- A file-system entry: a regular file, or a directory with its entries in the
order in which `filepath.Walk` visits them (sorted by name). -/
inductive Node where
  | file (name : String)
  | dir (name : String) (children : List Node)
  deriving Repr

mutual
/-- Equality of entries is decidable. -/
def Node.decEq : (a b : Node) → Decidable (a = b)
  | .file n, .file m =>
    if h : n = m then isTrue (congrArg Node.file h)
    else isFalse (fun h' => h (Node.file.inj h'))
  | .file _, .dir _ _ => isFalse (fun h => Node.noConfusion h)
  | .dir _ _, .file _ => isFalse (fun h => Node.noConfusion h)
  | .dir n cs, .dir m ds =>
    if h : n = m then
      match Node.decEqList cs ds with
      | isTrue h2 => isTrue (by rw [h, h2])
      | isFalse h2 => isFalse (fun h' => h2 (Node.dir.inj h').2)
    else isFalse (fun h' => h (Node.dir.inj h').1)
/-- Equality of lists of entries is decidable. -/
def Node.decEqList : (a b : List Node) → Decidable (a = b)
  | [], [] => isTrue rfl
  | [], _ :: _ => isFalse (fun h => List.noConfusion h)
  | _ :: _, [] => isFalse (fun h => List.noConfusion h)
  | a :: as, b :: bs =>
    match Node.decEq a b, Node.decEqList as bs with
    | isTrue h1, isTrue h2 => isTrue (by rw [h1, h2])
    | isFalse h1, _ => isFalse (fun h' => h1 (List.cons.inj h').1)
    | _, isFalse h2 => isFalse (fun h' => h2 (List.cons.inj h').2)
end

instance : DecidableEq Node := Node.decEq

/-- The name of an entry. -/
def Node.name : Node → String
  | .file n => n
  | .dir n _ => n

/-- The method `info.IsDir()`. -/
def Node.isDir : Node → Bool
  | .file _ => false
  | .dir _ _ => true

/-- What a `filepath.WalkFunc` returns: `nil`, `filepath.SkipDir`, or another
error (which stops the walk). -/
inductive WalkRet where
  | nil
  | skipDir
  | err
  deriving DecidableEq, Repr

/-- The error of a failed system call, as far as the program tells errors apart:
`os.IsNotExist(err)` or not. -/
inductive SysErr where
  | notExist
  | other
  deriving DecidableEq, Repr

/-- The path that `filepath.Walk` gives to an entry `name` of the directory `dir`:
`filepath.Join(dir, name)`, for a clean `dir` other than `.` and a file name. -/
def childPath (dir name : String) : String := dir ++ "/" ++ name

/-! ### `removeUnusedImports` -/

/-- The set `importsParents` built at the top of `removeUnusedImports`. -/
def importsParents (imports : Packages) : Packages :=
  imports.biUnion (parentPackages "")

/-- What one call of the walk function did: whether it called `os.Remove` or
`os.RemoveAll` on the path, and what it returned. -/
structure Visit where
  removeCalled : Bool
  ret : WalkRet
  deriving DecidableEq, Repr

/-- The walk function of `removeUnusedImports` at `path`. `werr` is the error the
walk hands in (`none` for `nil`), `sys` the error of the removal call should it
be made (`none` when it succeeds). The result is `none` when the slice that
computes the package identifier is out of range. -/
def unusedVisit (imports : Packages) (targetDir path : String) (isDir : Bool)
    (werr sys : Option SysErr) : Option Visit :=
  match werr with
  | some .notExist => some ⟨false, .skipDir⟩
  | some .other => some ⟨false, .err⟩
  | none =>
    if path = targetDir then some ⟨false, .nil⟩
    else if !isDir then
      match slice path (len (targetDir ++ "/")) (lastIndexSlash path) with
      | none => none
      | some pkg =>
        if hasSuffix path "_test.go" || hasSuffix path ".go" && !decide (pkg ∈ imports) then
          match sys with
          | none => some ⟨true, .nil⟩
          | some .notExist => some ⟨true, .nil⟩
          | some .other => some ⟨true, .err⟩
        else some ⟨false, .nil⟩
    else
      match sliceFrom path (len (targetDir ++ "/")) with
      | none => none
      | some pkg =>
        if !decide (pkg ∈ imports) && !decide (pkg ∈ importsParents imports) then
          match sys with
          | none => some ⟨true, .skipDir⟩
          | some .notExist => some ⟨true, .skipDir⟩
          | some .other => some ⟨true, .err⟩
        else some ⟨false, .nil⟩

/-- How a walk over the tree ended: it ran to its end, it stopped with an error,
or the program crashed on a slice out of range. -/
inductive Outcome where
  | done
  | failed
  | crashed
  deriving DecidableEq, Repr

/-- The outcome of the removal call at a path, from the oracle `fails` (the call
fails with an error other than "does not exist" and leaves the entry in place). -/
def sysAt (fails : String → Bool) (path : String) : Option SysErr :=
  if fails path then some .other else none

mutual
/-- The walk of `removeUnusedImports` below the target root, on one entry whose
directory has the path `parent`: what is left of the entry, and how the walk
ended. A removed directory is not entered. -/
def pruneNode (imports : Packages) (targetDir : String) (fails : String → Bool)
    (parent : String) : Node → Option Node × Outcome
  | .file name =>
    match unusedVisit imports targetDir (childPath parent name) false none
        (sysAt fails (childPath parent name)) with
    | none => (some (.file name), .crashed)
    | some v =>
      match v.ret with
      | .err => (some (.file name), .failed)
      | _ => (if v.removeCalled then none else some (.file name), .done)
  | .dir name cs =>
    match unusedVisit imports targetDir (childPath parent name) true none
        (sysAt fails (childPath parent name)) with
    | none => (some (.dir name cs), .crashed)
    | some v =>
      match v.ret with
      | .err => (some (.dir name cs), .failed)
      | .skipDir => (if v.removeCalled then none else some (.dir name cs), .done)
      | .nil =>
        match pruneList imports targetDir fails (childPath parent name) cs with
        | (cs', o) => (some (.dir name cs'), o)
/-- The walk of `removeUnusedImports` over the entries of one directory, in
order; it stops at the first entry whose walk did not run to its end. -/
def pruneList (imports : Packages) (targetDir : String) (fails : String → Bool)
    (parent : String) : List Node → List Node × Outcome
  | [] => ([], .done)
  | n :: ns =>
    match pruneNode imports targetDir fails parent n with
    | (r, .done) =>
      match pruneList imports targetDir fails parent ns with
      | (rs, o) => (r.toList ++ rs, o)
    | (r, o) => (r.toList ++ ns, o)
end

/-- The function `removeUnusedImports(imports, targetDir)` on an existing target
directory whose entries are `root`: the entries afterwards and the outcome
(`done` for a `nil` return, `failed` for an error). -/
def removeUnusedImports (imports : Packages) (targetDir : String) (fails : String → Bool)
    (root : List Node) : List Node × Outcome :=
  pruneList imports targetDir fails targetDir root

/-! ### `removeEmptyDirs` -/

mutual
/-- One walk of `removeEmptyDirs` on an entry below the target root: what is left
of it and how many directories were removed. `os.Remove` succeeds on a directory
exactly when it is empty and the call is not made to fail; a removed directory is
not entered, and a failed `os.Remove` is ignored. -/
def emptyPassNode (fails : String → Bool) (parent : String) : Node → Option Node × Nat
  | .file name => (some (.file name), 0)
  | .dir name cs =>
    if cs.isEmpty && !fails (childPath parent name) then (none, 1)
    else
      match emptyPassList fails (childPath parent name) cs with
      | (cs', k) => (some (.dir name cs'), k)
/-- One walk of `removeEmptyDirs` over the entries of a directory. -/
def emptyPassList (fails : String → Bool) (parent : String) : List Node → List Node × Nat
  | [] => ([], 0)
  | n :: ns =>
    match emptyPassNode fails parent n, emptyPassList fails parent ns with
    | (r, k), (rs, ks) => (r.toList ++ rs, k + ks)
end

/-- The loop `for count := 1; count != 0;` of `removeEmptyDirs`: walks are repeated
until one removes nothing. `fuel` bounds the number of walks; `none` when it runs
out. -/
def removeEmptyDirs (fails : String → Bool) (targetDir : String) :
    Nat → List Node → Option (List Node)
  | 0, _ => none
  | fuel + 1, root =>
    match emptyPassList fails targetDir root with
    | (root', 0) => some root'
    | (root', _ + 1) => removeEmptyDirs fails targetDir fuel root'

/-- The total number of entries of a list of trees. -/
def entryCount : List Node → Nat
  | [] => 0
  | .file _ :: ns => 1 + entryCount ns
  | .dir _ cs :: ns => 1 + entryCount cs + entryCount ns

/-- No regular file lies directly in the target root. -/
def noRootFiles (root : List Node) : Prop := ∀ n ∈ root, n.isDir = true

mutual
/-- The walk function of `removeUnusedImports` keeps the entry and everything
below it (in a directory whose path is `parent`). -/
def keptNode (imports : Packages) (targetDir : String) (parent : String) : Node → Prop
  | .file name =>
    unusedVisit imports targetDir (childPath parent name) false none none = some ⟨false, .nil⟩
  | .dir name cs =>
    unusedVisit imports targetDir (childPath parent name) true none none = some ⟨false, .nil⟩ ∧
      keptList imports targetDir (childPath parent name) cs
/-- The walk function of `removeUnusedImports` keeps every entry of the list and
everything below. -/
def keptList (imports : Packages) (targetDir : String) (parent : String) : List Node → Prop
  | [] => True
  | n :: ns => keptNode imports targetDir parent n ∧ keptList imports targetDir parent ns
end

/-! ### `listPackages` -/

/-- The path that `filepath.Walk` started at `.` gives to an entry `name` of the
directory `dir`: `filepath.Join(dir, name)`, which drops a leading `./`. -/
def walkJoin (dir name : String) : String :=
  if dir = "." then name else dir ++ "/" ++ name

/-- The walk function of `listPackages` at `path`, with the set `r` built so far.
`werr` says that the walk hands in an error; `parse path` is what
`parser.ParseDir(.., path, nil, parser.PackageClauseOnly)` gives: `none` for an
error, otherwise the number of packages found. -/
def listPackagesVisit (rootPackage targetDir : String) (parse : String → Option Nat)
    (r : Packages) (path : String) (isDir : Bool) (werr : Bool) : Packages × WalkRet :=
  if werr then (r, .err)
  else if !isDir then (r, .nil)
  else if path = targetDir || hasSuffix path (targetDir ++ "/") ||
      (path ≠ "." &&
        hasPrefix ⟨path.data.drop (lastIndexSlash path + 1).toNat⟩ ".") then
    (r, .skipDir)
  else
    match parse path with
    | none => (r, .err)
    | some k =>
      if k > 0 then
        if path = "." then (insert rootPackage r, .nil)
        else (insert (rootPackage ++ "/" ++ path) r, .nil)
      else (r, .nil)

mutual
/-- The function `walk` of `path/filepath` with the walk function of
`listPackages`, on the entry `n` whose path is `path`: the set after the walk of
the entry and the error that `walk` returns. -/
def walkPackages (rootPackage targetDir : String) (parse : String → Option Nat)
    (path : String) : Node → Packages → Packages × WalkRet
  | .file _, r => listPackagesVisit rootPackage targetDir parse r path false false
  | .dir _ cs, r =>
    match listPackagesVisit rootPackage targetDir parse r path true false with
    | (r', .nil) => walkPackagesList rootPackage targetDir parse path cs r'
    | (r', e) => (r', e)
/-- The loop over the names of a directory in `walk`: an error from an entry
stops the walk unless it is `SkipDir` from a directory. -/
def walkPackagesList (rootPackage targetDir : String) (parse : String → Option Nat)
    (dir : String) : List Node → Packages → Packages × WalkRet
  | [], r => (r, .nil)
  | n :: ns, r =>
    match walkPackages rootPackage targetDir parse (walkJoin dir n.name) n r with
    | (r', .nil) => walkPackagesList rootPackage targetDir parse dir ns r'
    | (r', .skipDir) =>
      if n.isDir then walkPackagesList rootPackage targetDir parse dir ns r'
      else (r', .skipDir)
    | (r', .err) => (r', .err)
end

/-- The function `listPackages(rootPackage, targetDir)` in a project directory
whose tree is `project`: the set built by `filepath.Walk(".", ..)`, whose own
result is dropped. -/
def listPackages (rootPackage targetDir : String) (parse : String → Option Nat)
    (project : Node) : Packages :=
  (walkPackages rootPackage targetDir parse "." project ∅).1

/-! ### `listImports` -/

/-- The two modes in which `listImports` calls `parser.ParseDir`:
`parser.ImportsOnly` (parsing stops after the import declarations) and
`parser.ParseComments` (the whole file is parsed). -/
inductive ParseMode where
  | importsOnly
  | parseComments
  deriving DecidableEq, Repr

/-- A Go source file as `listImports` reads it: its name, the paths of its import
declarations (the text between the quotes of `v.Path.Value`), the text
`cg.Text()` of the doc comment of each import of `"C"` that has one, and where
the parser rejects the file: `importsError` for a syntax error in the package
clause or the import declarations (both modes fail), `bodyError` for a syntax
error after the imports (only the parse of the whole file fails). -/
structure GoFile where
  name : String
  imports : List String
  preambles : List String
  importsError : Bool
  bodyError : Bool

/-- The world outside the program: `readDir p` lists the Go files of directory `p`
(`none` when it does not exist) and `stat p` says that `os.Stat(p)` does not
report "does not exist". -/
structure World where
  readDir : String → Option (List GoFile)
  stat : String → Bool

/-- The declared-import pass on one import path `imp` of a file of the package
`pkg` (the body of the innermost loop): the identifier sent on `sch`, if any. -/
def declaredImport (rootPackage pkg imp : String) : Option String :=
  let first := (split imp '/').headD ""
  if !containsDot first then none
  else
    let imp' := if first = "." ∨ first = ".." then filepathClean (filepathJoin pkg imp) else imp
    if imp' = rootPackage ∨ hasPrefix imp' (rootPackage ++ "/") = true then none
    else some imp'

/-- The foreign-preamble pass on one line of a preamble: the identifiers sent on
`sch`, or `none` when the slice `line[10 : len(line)-1]` is out of range. -/
def includeLine (stat : String → Bool) (pkg pkgPath line : String) : Option (List String) :=
  let line := trimSpace line
  if hasPrefix line "#include \"" then
    match slice line 10 ((len line : Int) - 1) with
    | none => none
    | some inc =>
      let includePath := filepathDir inc
      if includePath ≠ "." then
        if stat (filepathJoin pkgPath includePath) then
          some [filepathClean (filepathJoin pkg includePath)]
        else some []
      else some []
  else some []

/-- The foreign-preamble pass on the lines of one preamble, in order. -/
def includeLines (stat : String → Bool) (pkg pkgPath : String) :
    List String → Option (List String)
  | [] => some []
  | l :: ls =>
    match includeLine stat pkg pkgPath l, includeLines stat pkg pkgPath ls with
    | some a, some b => some (a ++ b)
    | _, _ => none

/-- The directory `pkgPath` that `listImports` parses for the package `pkg`. -/
def pkgPathOf (rootPackage libRoot pkg : String) : String :=
  if pkg ≠ rootPackage then
    if hasPrefix pkg (rootPackage ++ "/") then ⟨pkg.data.drop (len rootPackage + 1)⟩
    else libRoot ++ "/" ++ pkg
  else "."

/-- The file filter `noVendoredTests` of `listImports`. -/
def noVendoredTests (libRoot pkgPath name : String) : Bool :=
  if hasPrefix pkgPath (libRoot ++ "/") && hasSuffix name "_test.go" then false else true

/-- Whether the parser rejects the file in the given mode. -/
def GoFile.rejected (f : GoFile) : ParseMode → Bool
  | .importsOnly => f.importsError
  | .parseComments => f.importsError || f.bodyError

/-- The call `parser.ParseDir(.., pkgPath, noVendoredTests, mode)`: the accepted
files of the directory (those named `*.go` that pass the filter), or the error
(`notExist` for a missing directory, `other` when an accepted file does not parse
in this mode). -/
def parseDir (w : World) (libRoot pkgPath : String) (mode : ParseMode) :
    Except SysErr (List GoFile) :=
  match w.readDir pkgPath with
  | none => .error .notExist
  | some files =>
    let kept := files.filter fun f =>
      hasSuffix f.name ".go" && noVendoredTests libRoot pkgPath f.name
    if kept.any (fun f => f.rejected mode) then .error .other else .ok kept

/-- The strings sent on `sch` by the declared-import pass of `listImports`. -/
def declaredPass (rootPackage pkg : String) (files : List GoFile) : List String :=
  files.flatMap fun f => f.imports.filterMap (declaredImport rootPackage pkg)

/-- The strings sent on `sch` by the foreign-preamble pass of `listImports`, or
`none` when a slice is out of range. -/
def preamblePass (stat : String → Bool) (pkg pkgPath : String) (files : List GoFile) :
    Option (List String) :=
  includeLines stat pkg pkgPath
    (files.flatMap fun f => f.preambles.flatMap fun t => split t '\n')

/-- The function `listImports(rootPackage, libRoot, pkg)`: the set delivered on the
returned channel, that is every string sent on `sch` together with the one sent
by `util.OneStr(pkg)`; `none` when the goroutine crashes on a slice out of
range. When the first call of `parser.ParseDir` (imports only) fails the
goroutine returns before it sends anything; when the second call (with
comments) fails the declared imports have been sent already and only the
foreign-preamble pass is left out. -/
def listImports (w : World) (rootPackage libRoot pkg : String) : Option Packages :=
  let pkgPath := pkgPathOf rootPackage libRoot pkg
  match parseDir w libRoot pkgPath .importsOnly with
  | .error _ => some {pkg}
  | .ok files =>
    match parseDir w libRoot pkgPath .parseComments with
    | .error _ => some ((declaredPass rootPackage pkg files).toFinset ∪ {pkg})
    | .ok parsed =>
      match preamblePass w.stat pkg pkgPath parsed with
      | none => none
      | some cgo => some ((declaredPass rootPackage pkg files ++ cgo).toFinset ∪ {pkg})

/-! ### `collectImports` -/

/-- The variables of the loop of `collectImports`. -/
structure LoopState where
  imports : Packages
  packages : Packages
  seenPackages : Packages

/-- One turn of the loop of `collectImports`, with `E pkg` the set that
`listImports(rootPackage, libRoot, pkg)` delivers. -/
def loopStep (E : String → Packages) (s : LoopState) : LoopState :=
  let imports := s.imports ∪ s.packages.biUnion E
  let seenPackages := s.seenPackages ∪ s.packages
  { imports := imports
    packages := imports.filter fun i => i ∉ seenPackages
    seenPackages := seenPackages }

/-- The loop `for len(packages) > 0` of `collectImports` from the state `s`: the
states at the start of every turn taken, and the final `imports`. `fuel` bounds
the number of turns; `none` when it runs out. -/
def collectLoop (E : String → Packages) : Nat → LoopState → Option (List LoopState × Packages)
  | 0, s => if s.packages.card > 0 then none else some ([], s.imports)
  | fuel + 1, s =>
    if s.packages.card > 0 then
      match collectLoop E fuel (loopStep E s) with
      | none => none
      | some (trace, r) => some (s :: trace, r)
    else some ([], s.imports)

/-- The function `collectImports`, with `discovered` the result of `listPackages`
and `E` the extractor `listImports`. -/
def collectImports (E : String → Packages) (fuel : Nat) (discovered : Packages) :
    Option Packages :=
  (collectLoop E fuel ⟨∅, discovered, ∅⟩).map Prod.snd

/-- An identifier is internal: it is the root package or lies below it. -/
def isInternal (rootPackage x : String) : Bool :=
  x = rootPackage || hasPrefix x (rootPackage ++ "/")

/-- The identifier `p` is reached from the discovered packages by zero or more
steps of the extractor `E` (a step goes from a package to a member of the set
delivered for it). -/
inductive Reach (E : String → Packages) (discovered : Packages) : String → Prop where
  | base {p : String} : p ∈ discovered → Reach E discovered p
  | step {p q : String} : Reach E discovered p → q ∈ E p → Reach E discovered q

/-- The invariant of the loop of `collectImports`: `imports` is what the extractor
delivered for the packages seen, the frontier `packages` is disjoint from them,
everything seen or in the frontier is reached from the discovered packages, and
whatever was discovered or delivered for a seen package is seen or in the
frontier. -/
structure LoopInv (E : String → Packages) (discovered : Packages) (s : LoopState) : Prop where
  imports_eq : s.imports = s.seenPackages.biUnion E
  disjoint : Disjoint s.packages s.seenPackages
  reach : ∀ p ∈ s.seenPackages ∪ s.packages, Reach E discovered p
  discovered_sub : discovered ⊆ s.seenPackages ∪ s.packages
  closed : ∀ p ∈ s.seenPackages, E p ⊆ s.seenPackages ∪ s.packages

/-! ### `cleanup` -/

/-- The function `guessRootPackage(dir)` with the global `gopath`; `srcExists` says
that `os.Stat(srcPath)` succeeds. The result is `none` when `logrus.Fatalf` ends
the program. -/
def guessRootPackage (gopath dir : String) (srcExists : Bool) : Option String :=
  if gopath = "" || gopath.data.contains ':' then none
  else
    let srcPath := filepathClean (filepathJoin gopath "src")
    if !hasPrefix dir (srcPath ++ "/") then none
    else if !srcExists then none
    else some ⟨dir.data.drop (len (srcPath ++ "/"))⟩

/-- How a call made by `cleanup` ended: it returned, with the tree as it left it
and its error (`none` for `nil`), or the program did not get past it (a panic,
or a loop without end). -/
inductive Step (σ : Type) where
  | returned (tree : σ) (err : Option SysErr)
  | died (tree : σ)
  deriving DecidableEq, Repr

/-- How a run of `cleanup` ended: `logrus.Fatalf` in `guessRootPackage`, the program
dying in one of the steps, or a return, with the error returned (`none` for
`nil`), the errors logged with `logrus.Errorf`, and the tree afterwards. -/
inductive CleanupRun (σ : Type) where
  | fatal
  | died (logged : List SysErr) (tree : σ)
  | returned (ret : Option SysErr) (logged : List SysErr) (tree : σ)
  deriving DecidableEq, Repr

/-- The function `cleanup(dir, targetDir)`. The functions it calls after
`guessRootPackage` are parameters: `collect rootPackage` for `collectImports`
(`none` when it does not return), `removeUnused` and `removeEmpty` for the two
pruning steps. -/
def cleanup {σ : Type} (gopath dir : String) (srcExists : Bool)
    (collect : String → Option Packages) (removeUnused : Packages → σ → Step σ)
    (removeEmpty : σ → Step σ) (tree : σ) : CleanupRun σ :=
  match guessRootPackage gopath dir srcExists with
  | none => .fatal
  | some rootPackage =>
    match collect rootPackage with
    | none => .died [] tree
    | some imports =>
      match removeUnused imports tree with
      | .died t1 => .died [] t1
      | .returned t1 e1 =>
        match removeEmpty t1 with
        | .died t2 => .died e1.toList t2
        | .returned t2 e2 => .returned none (e1.toList ++ e2.toList) t2

/-- The call `removeUnusedImports(imports, targetDir)` as a step of `cleanup`: an
outcome `failed` is the error returned, a crash ends the program. -/
def removeUnusedStep (targetDir : String) (fails : String → Bool) (imports : Packages)
    (root : List Node) : Step (List Node) :=
  match removeUnusedImports imports targetDir fails root with
  | (t, .done) => .returned t none
  | (t, .failed) => .returned t (some .other)
  | (t, .crashed) => .died t

/-- The call `removeEmptyDirs(targetDir)` as a step of `cleanup`, with `fuel` walks
allowed. -/
def removeEmptyStep (targetDir : String) (fails : String → Bool) (fuel : Nat)
    (root : List Node) : Step (List Node) :=
  match removeEmptyDirs fails targetDir fuel root with
  | some t => .returned t none
  | none => .died root

/-! ### The foreign-preamble rule in the words of the specification -/

/-- The quoted include path of a directive as the specification reads it: the
text between the quote that follows `#include` and the next quote. -/
def quotedIncludePath (line : String) : String :=
  ⟨(line.data.drop 10).takeWhile fun c => c ≠ '"'⟩

/-- The foreign-preamble rule as the specification words it: for a line whose
trimmed text begins with `#include "`, with `d` the directory part of the quoted
include path, `Clean(Join(pkg, d))` is emitted exactly when `d` is not `.` and
`pkgPath/d` exists. -/
def includeLineSpec (stat : String → Bool) (pkg pkgPath line : String) : List String :=
  let line := trimSpace line
  if hasPrefix line "#include \"" then
    let d := filepathDir (quotedIncludePath line)
    if d ≠ "." ∧ stat (filepathJoin pkgPath d) = true then [filepathClean (filepathJoin pkg d)]
    else []
  else []

/-! ### A small project, used as a concrete input -/

/-- The project `example.com/app`: one package `cmd`, and a vendor directory with
a used package `github.com/foo/bar` and an unused one `github.com/foo/baz`. -/
def exampleProject : Node :=
  .dir "app"
    [.dir "cmd" [.file "main.go"],
     .dir "vendor"
       [.dir "github.com"
         [.dir "foo"
           [.dir "bar" [.file "README", .file "bar.go", .file "bar_test.go"],
            .dir "baz" [.file "baz.go"]]]]]

/-- The entries of the vendor directory of `exampleProject`. -/
def exampleVendor : List Node :=
  [.dir "github.com"
    [.dir "foo"
      [.dir "bar" [.file "README", .file "bar.go", .file "bar_test.go"],
       .dir "baz" [.file "baz.go"]]]]

/-- The package clauses of `exampleProject`: only `cmd` holds a package. -/
def exampleParse : String → Option Nat :=
  fun p => if p = "cmd" then some 1 else some 0

/-- The Go files of `exampleProject` as `listImports` reads them: `cmd/main.go`
imports `fmt` and `github.com/foo/bar`; of that package `bar.go` imports
`strings` and the test file imports `github.com/foo/check`. -/
def exampleWorld : World where
  readDir := fun p =>
    if p = "cmd" then some [⟨"main.go", ["fmt", "github.com/foo/bar"], [], false, false⟩]
    else if p = "vendor/github.com/foo/bar" then
      some [⟨"bar.go", ["strings"], [], false, false⟩,
        ⟨"bar_test.go", ["testing", "github.com/foo/check"], [], false, false⟩]
    else if p = "vendor/github.com/foo/baz" then some [⟨"baz.go", [], [], false, false⟩]
    else none
  stat := fun _ => false

/-- The extractor of `exampleProject`. -/
def exampleExtractor : String → Packages :=
  fun p => (listImports exampleWorld "example.com/app" "vendor" p).getD ∅

/-- The packages that `listPackages` discovers in `exampleProject`. -/
def exampleDiscovered : Packages :=
  listPackages "example.com/app" "vendor" exampleParse exampleProject

/-- The identifiers reached from the discovered packages of `exampleProject`. -/
def exampleReached : Packages := {"example.com/app/cmd", "github.com/foo/bar"}

/-- A project with a package in its root directory, in which the directory `a`
does not parse while `a/sub` and `b` hold a package each. -/
def brokenProject : Node :=
  .dir "app"
    [.dir "a" [.file "bad.go", .dir "sub" [.file "sub.go"]],
     .dir "b" [.file "b.go"],
     .file "main.go"]

/-- A vendor directory with a regular file directly in it, between a used package
and an unused directory. -/
def rootFileVendor : List Node :=
  [.dir "github.com" [.dir "foo" [.dir "bar" [.file "bar.go"]]],
   .file "modules.txt",
   .dir "zz" [.file "z.go"]]

/-- The collaborators of `cleanup` for `exampleProject`: the Closure computed from
the root package. -/
def exampleCollect (rootPackage : String) : Option Packages :=
  collectImports (fun p => (listImports exampleWorld rootPackage "vendor" p).getD ∅) 2
    (listPackages rootPackage "vendor" exampleParse exampleProject)

/-- The package clauses of `brokenProject`: `parser.ParseDir` fails on `a`. -/
def brokenParse : String → Option Nat :=
  fun p => if p = "a" then none else some 1

/-- A removal that fails: `os.RemoveAll` is refused on `vendor/github.com/foo/baz`
(a permission error). -/
def bazLocked : String → Bool :=
  fun p => p == "vendor/github.com/foo/baz"

/-- The vendor directory of `exampleProject` after `removeUnusedImports` stopped at
the refused removal of `baz`: the test file of `bar` is gone, `baz` is still
there. -/
def exampleVendorAfterFailure : List Node :=
  [.dir "github.com"
    [.dir "foo"
      [.dir "bar" [.file "README", .file "bar.go"],
       .dir "baz" [.file "baz.go"]]]]

/-! ## Part 2. Lemmas and theorems -/

/-! ### Strings -/

theorem data_slash : ("/" : String).data = ['/'] := rfl

theorem lastIndexChars_cons (c x : Char) (xs : List Char) :
    lastIndexChars c (x :: xs) =
      if 0 ≤ lastIndexChars c xs then lastIndexChars c xs + 1
      else if x = c then 0 else -1 := rfl

theorem lastIndexChars_of_not_mem (c : Char) (s : List Char) (h : c ∉ s) :
    lastIndexChars c s = -1 := by
  induction s with
  | nil => rfl
  | cons x xs ih =>
    have hx : x ≠ c := fun e => h (by simp [e])
    have hxs : c ∉ xs := fun e => h (by simp [e])
    simp [lastIndexChars, ih hxs, hx]

theorem lastIndexChars_append_cons (c : Char) (a b : List Char) (h : c ∉ b) :
    lastIndexChars c (a ++ c :: b) = a.length := by
  induction a with
  | nil => simp [lastIndexChars, lastIndexChars_of_not_mem c b h]
  | cons x xs ih =>
    have : (0 : Int) ≤ (xs.length : Int) := Int.ofNat_nonneg _
    rw [List.cons_append, lastIndexChars_cons, ih, if_pos this]
    simp

theorem lastIndexChars_ge_append (c : Char) (a b : List Char) :
    (a.length : Int) ≤ lastIndexChars c (a ++ c :: b) := by
  induction a with
  | nil =>
    simp only [List.nil_append, lastIndexChars, List.length_nil]
    split_ifs <;> omega
  | cons x xs ih =>
    have : (0 : Int) ≤ (xs.length : Int) := Int.ofNat_nonneg _
    rw [List.cons_append, lastIndexChars_cons, List.length_cons]
    split_ifs <;> push_cast <;> omega

theorem lastIndexChars_lt (c : Char) (s : List Char) :
    lastIndexChars c s < s.length := by
  induction s with
  | nil => simp [lastIndexChars]
  | cons x xs ih =>
    rw [lastIndexChars_cons, List.length_cons]
    split_ifs <;> push_cast <;> omega

theorem chars_split_last (c : Char) (s : List Char) :
    c ∉ s ∨ ∃ a b, s = a ++ c :: b ∧ c ∉ b := by
  induction s with
  | nil => left; simp
  | cons x xs ih =>
    rcases ih with h | ⟨a, b, rfl, hb⟩
    · by_cases hx : x = c
      · right; exact ⟨[], xs, by simp [hx], h⟩
      · left; simp [h, Ne.symm hx]
    · right; exact ⟨x :: a, b, rfl, hb⟩

theorem parentStep_slash (a b : List Char) (hb : '/' ∉ b) :
    parentStep ⟨a ++ '/' :: b⟩ = ⟨a⟩ := by
  have h1 : pathSplitDir ⟨a ++ '/' :: b⟩ = ⟨a ++ ['/']⟩ := by
    simp only [pathSplitDir, lastIndexSlash, lastIndexChars_append_cons '/' a b hb]
    congr 1
    have : ((a.length : Int) + 1).toNat = (a ++ ['/']).length := by
      simp only [List.length_append, List.length_singleton]; omega
    rw [this, show a ++ '/' :: b = (a ++ ['/']) ++ b by simp]
    exact List.take_left' rfl
  simp [parentStep, h1, len]

theorem parentStep_no_slash (p : String) (h : '/' ∉ p.data) : parentStep p = "" := by
  have h1 : pathSplitDir p = "" := by
    simp [pathSplitDir, lastIndexSlash, lastIndexChars_of_not_mem '/' _ h]
  simp [parentStep, h1, len]

/-! ### `parentPackages` -/

theorem ancestor_slash (q a b : List Char) (hb : '/' ∉ b) :
    (∃ rest, a ++ '/' :: b = q ++ '/' :: rest) ↔ q = a ∨ ∃ rest, a = q ++ '/' :: rest := by
  constructor
  · rintro ⟨rest, h⟩
    rcases List.append_eq_append_iff.mp h with ⟨t, h1, h2⟩ | ⟨t, h1, h2⟩
    · cases t with
      | nil => left; rw [h1, List.append_nil]
      | cons x t =>
        exfalso
        simp only [List.cons_append, List.cons.injEq] at h2
        exact hb (by rw [h2.2]; simp)
    · cases t with
      | nil => left; rw [h1, List.append_nil]
      | cons x t =>
        simp only [List.cons_append, List.cons.injEq] at h2
        right; exact ⟨t, by rw [h1, ← h2.1]⟩
  · rintro (rfl | ⟨rest, rfl⟩)
    · exact ⟨b, rfl⟩
    · exact ⟨rest ++ '/' :: b, by simp⟩

theorem ancestor_no_slash (q p : List Char) (h : '/' ∉ p) :
    ¬ ∃ rest, p = q ++ '/' :: rest := by
  rintro ⟨rest, rfl⟩
  exact h (by simp)

theorem mem_parentPackagesLoop (fuel : Nat) :
    ∀ (p : String) (r : Packages) (q : String), len p ≤ fuel →
      (q ∈ parentPackagesLoop 0 fuel p r ↔
        q ∈ r ∨ (q ≠ "" ∧ (q = p ∨ ∃ rest, p.data = q.data ++ '/' :: rest))) := by
  induction fuel with
  | zero =>
    intro p r q hp
    have hp0 : p.data = [] := List.length_eq_zero.mp (Nat.le_zero.mp hp)
    have hp' : p = "" := String.ext hp0
    simp only [parentPackagesLoop]
    constructor
    · exact Or.inl
    · rintro (h | ⟨hq, h | ⟨rest, h⟩⟩)
      · exact h
      · exact absurd (h.trans hp') hq
      · rw [hp0] at h; simp at h
  | succ fuel ih =>
    intro p r q hp
    simp only [parentPackagesLoop]
    by_cases hlen : len p > 0
    · rw [if_pos hlen]
      have hpne : p ≠ "" := by
        rintro rfl
        simp [len] at hlen
      rcases chars_split_last '/' p.data with hns | ⟨a, b, hab, hb⟩
      · rw [parentStep_no_slash p hns, ih "" _ q (by simp [len])]
        simp only [Finset.mem_insert]
        constructor
        · rintro ((h | h) | ⟨hq, h | ⟨rest, h⟩⟩)
          · exact Or.inr ⟨h ▸ hpne, Or.inl h⟩
          · exact Or.inl h
          · exact absurd h hq
          · simp at h
        · rintro (h | ⟨hq, h | ⟨rest, h⟩⟩)
          · exact Or.inl (Or.inr h)
          · exact Or.inl (Or.inl h)
          · exact absurd ⟨rest, h⟩ (ancestor_no_slash _ _ hns)
      · have hp' : p = ⟨a ++ '/' :: b⟩ := String.ext hab
        have hlt : len (⟨a⟩ : String) ≤ fuel := by
          have : len p = a.length + 1 + b.length := by simp [len, hab]; omega
          simp only [len] at hp this ⊢
          omega
        rw [hp', parentStep_slash a b hb, ih ⟨a⟩ _ q hlt, ← hp']
        simp only [Finset.mem_insert]
        have key := ancestor_slash q.data a b hb
        rw [← hab] at key
        constructor
        · rintro ((h | h) | ⟨hq, h | ⟨rest, h⟩⟩)
          · exact Or.inr ⟨h ▸ hpne, Or.inl h⟩
          · exact Or.inl h
          · exact Or.inr ⟨hq, Or.inr (key.mpr (Or.inl (by rw [h])))⟩
          · exact Or.inr ⟨hq, Or.inr (key.mpr (Or.inr ⟨rest, h⟩))⟩
        · rintro (h | ⟨hq, h | h⟩)
          · exact Or.inl (Or.inr h)
          · exact Or.inl (Or.inl h)
          · rcases key.mp h with h' | h'
            · exact Or.inr ⟨hq, Or.inl (String.ext h')⟩
            · exact Or.inr ⟨hq, Or.inr h'⟩
    · rw [if_neg hlen]
      have hp0 : p.data = [] := List.length_eq_zero.mp (by simp only [len] at hlen; omega)
      have hp' : p = "" := String.ext hp0
      constructor
      · exact Or.inl
      · rintro (h | ⟨hq, h | ⟨rest, h⟩⟩)
        · exact h
        · exact absurd (h.trans hp') hq
        · rw [hp0] at h; simp at h

theorem mem_parentPackages (m q : String) :
    q ∈ parentPackages "" m ↔
      q ≠ "" ∧ (q = m ∨ ∃ rest, m.data = q.data ++ '/' :: rest) := by
  have h := mem_parentPackagesLoop (len m) m ∅ q (Nat.le_refl _)
  have h0 : len "" = 0 := rfl
  rw [parentPackages, h0, h]
  simp

theorem mem_importsParents (imports : Packages) (q : String) :
    q ∈ importsParents imports ↔
      q ≠ "" ∧ ∃ m ∈ imports, q = m ∨ ∃ rest, m.data = q.data ++ '/' :: rest := by
  simp only [importsParents, Finset.mem_biUnion, mem_parentPackages]
  constructor
  · rintro ⟨m, hm, hq, h⟩
    exact ⟨hq, m, hm, h⟩
  · rintro ⟨hq, m, hm, h⟩
    exact ⟨m, hm, hq, h⟩

/-! ### The walk function of `removeUnusedImports` -/

theorem slice_mid (a b c : List Char) :
    slice ⟨a ++ b ++ c⟩ (a.length : Int) ((a.length + b.length : Nat) : Int) = some ⟨b⟩ := by
  have h : (0 : Int) ≤ (a.length : Int) ∧ (a.length : Int) ≤ ((a.length + b.length : Nat) : Int) ∧
      ((a.length + b.length : Nat) : Int) ≤ (len ⟨a ++ b ++ c⟩ : Int) := by
    simp only [len, List.length_append]
    refine ⟨?_, ?_, ?_⟩ <;> omega
  rw [slice, if_pos h]
  have e : ((a.length + b.length : Nat) : Int).toNat - (a.length : Int).toNat = b.length := by
    rw [Int.toNat_ofNat, Int.toNat_ofNat]; omega
  rw [e]
  simp

theorem sliceFrom_childPath (t q : String) :
    sliceFrom (t ++ "/" ++ q) (len (t ++ "/")) = some q := by
  have h := slice_mid (t.data ++ ['/']) q.data []
  have e1 : (t ++ "/" ++ q : String) = ⟨t.data ++ ['/'] ++ q.data ++ []⟩ := by
    apply String.ext; simp [data_slash]
  have e2 : len (t ++ "/") = (t.data ++ ['/']).length := by simp [len, data_slash]
  have e3 : len (t ++ "/" ++ q) = (t.data ++ ['/']).length + q.data.length := by
    simp only [len, String.data_append, data_slash, List.length_append]
  rw [sliceFrom, e3, e2, e1]
  exact h

theorem childPath_ne (t q : String) : t ++ "/" ++ q ≠ t := by
  intro h
  have := congrArg (fun s : String => s.data.length) h
  simp [data_slash] at this

theorem unusedVisit_dir (imports : Packages) (targetDir q : String) (sys : Option SysErr) :
    unusedVisit imports targetDir (targetDir ++ "/" ++ q) true none sys =
      if q ∉ imports ∧ q ∉ importsParents imports then
        (match sys with
          | none => some ⟨true, .skipDir⟩
          | some .notExist => some ⟨true, .skipDir⟩
          | some .other => some ⟨true, .err⟩)
      else some ⟨false, .nil⟩ := by
  simp only [unusedVisit, if_neg (childPath_ne targetDir q), sliceFrom_childPath]
  by_cases h1 : q ∈ imports <;> by_cases h2 : q ∈ importsParents imports <;> simp [h1, h2]

/-- The directory rule of the walk function: at a path `targetDir/q` the walk
function of `removeUnusedImports` calls `os.RemoveAll` exactly when `q` is
neither a member of the Closure nor a proper path prefix, cut at a `/`, of a
member; a successful removal returns `SkipDir`, a kept directory returns `nil`.
The set `importsParents` holds exactly the non-empty members and their prefixes
cut at a `/`. -/
theorem removeUnusedImports_dir_rule (imports : Packages) (targetDir q : String)
    (sys : Option SysErr) (hq : q ≠ "") :
    ∃ v, unusedVisit imports targetDir (targetDir ++ "/" ++ q) true none sys = some v ∧
      (v.removeCalled = true ↔
        q ∉ imports ∧ ¬ ∃ m ∈ imports, ∃ rest : String, m = q ++ "/" ++ rest) ∧
      (v.removeCalled = true → sys = none → v.ret = .skipDir) ∧
      (v.removeCalled = false → v.ret = .nil) ∧
      (∀ x : String, x ∈ importsParents imports ↔
        x ≠ "" ∧ ∃ m ∈ imports, x = m ∨ ∃ rest : String, m = x ++ "/" ++ rest) ∧
      (∀ rest : String, q ++ "/" ++ rest ∈ imports → v.removeCalled = false) := by
  have hanc : ∀ x : String, x ∈ importsParents imports ↔
      x ≠ "" ∧ ∃ m ∈ imports, x = m ∨ ∃ rest : String, m = x ++ "/" ++ rest := by
    intro x
    rw [mem_importsParents]
    constructor
    · rintro ⟨hx, m, hm, h | ⟨rest, h⟩⟩
      · exact ⟨hx, m, hm, Or.inl h⟩
      · exact ⟨hx, m, hm, Or.inr ⟨⟨rest⟩, String.ext (by simp [h, data_slash])⟩⟩
    · rintro ⟨hx, m, hm, h | ⟨rest, h⟩⟩
      · exact ⟨hx, m, hm, Or.inl h⟩
      · exact ⟨hx, m, hm, Or.inr ⟨rest.data, by simp [h, data_slash]⟩⟩
  have hiff : (q ∉ imports ∧ q ∉ importsParents imports) ↔
      (q ∉ imports ∧ ¬ ∃ m ∈ imports, ∃ rest : String, m = q ++ "/" ++ rest) := by
    rw [hanc q]
    constructor
    · rintro ⟨h1, h2⟩
      exact ⟨h1, fun ⟨m, hm, rest, h⟩ => h2 ⟨hq, m, hm, Or.inr ⟨rest, h⟩⟩⟩
    · rintro ⟨h1, h2⟩
      refine ⟨h1, ?_⟩
      rintro ⟨_, m, hm, h | ⟨rest, h⟩⟩
      · exact h1 (h ▸ hm)
      · exact h2 ⟨m, hm, rest, h⟩
  rw [unusedVisit_dir]
  by_cases hc : q ∉ imports ∧ q ∉ importsParents imports
  · rw [if_pos hc]
    have hc' := hiff.mp hc
    have hno : ∀ rest : String, q ++ "/" ++ rest ∉ imports :=
      fun rest hm => hc'.2 ⟨_, hm, rest, rfl⟩
    rcases sys with _ | _ | _
    · exact ⟨⟨true, .skipDir⟩, rfl, by simp [hc'], by simp, by simp, hanc,
        fun rest hm => absurd hm (hno rest)⟩
    · exact ⟨⟨true, .skipDir⟩, rfl, by simp [hc'], by simp, by simp, hanc,
        fun rest hm => absurd hm (hno rest)⟩
    · exact ⟨⟨true, .err⟩, rfl, by simp [hc'], by simp, by simp, hanc,
        fun rest hm => absurd hm (hno rest)⟩
  · rw [if_neg hc]
    have hc' : ¬ (q ∉ imports ∧ ¬ ∃ m ∈ imports, ∃ rest : String, m = q ++ "/" ++ rest) :=
      fun h => hc (hiff.mpr h)
    exact ⟨⟨false, .nil⟩, rfl, by simp only [Bool.false_eq_true, false_iff]; exact hc',
      by simp, by simp, hanc, fun _ _ => rfl⟩

/-! ### Induction over file trees -/

theorem Node.induct {P : Node → Prop} {Q : List Node → Prop}
    (hfile : ∀ name, P (.file name))
    (hdir : ∀ name cs, Q cs → P (.dir name cs))
    (hnil : Q [])
    (hcons : ∀ n ns, P n → Q ns → Q (n :: ns)) :
    (∀ n, P n) ∧ (∀ ns, Q ns) :=
  ⟨fun n => @Node.rec P Q hfile (fun name cs ih => hdir name cs ih) hnil
      (fun n ns ih1 ih2 => hcons n ns ih1 ih2) n,
   fun ns => @Node.rec_1 P Q hfile (fun name cs ih => hdir name cs ih) hnil
      (fun n ns ih1 ih2 => hcons n ns ih1 ih2) ns⟩

/-! ### Idempotence of the pruner -/

theorem unusedVisit_kept (imports : Packages) (targetDir path : String) (isDir : Bool)
    (sys : Option SysErr) (v : Visit)
    (h : unusedVisit imports targetDir path isDir none sys = some v)
    (hv : v.removeCalled = false) (sys' : Option SysErr) :
    unusedVisit imports targetDir path isDir none sys' = some ⟨false, .nil⟩ := by
  simp only [unusedVisit] at h ⊢
  by_cases h1 : path = targetDir
  · simp [h1]
  · simp only [if_neg h1] at h ⊢
    cases isDir with
    | false =>
      simp only [Bool.not_false, if_true] at h ⊢
      cases hs : slice path (len (targetDir ++ "/")) (lastIndexSlash path) with
      | none => simp [hs] at h
      | some pkg =>
        simp only [hs] at h ⊢
        split_ifs at h ⊢ with hc
        · rcases sys with _ | _ | _ <;> simp at h <;> subst h <;> simp at hv
        · rfl
    | true =>
      simp only [Bool.not_true, Bool.false_eq_true, if_false] at h ⊢
      cases hs : sliceFrom path (len (targetDir ++ "/")) with
      | none => simp [hs] at h
      | some pkg =>
        simp only [hs] at h ⊢
        split_ifs at h ⊢ with hc
        · rcases sys with _ | _ | _ <;> simp at h <;> subst h <;> simp at hv
        · rfl

theorem unusedVisit_dir_nil (imports : Packages) (targetDir path : String)
    (sys : Option SysErr) (v : Visit)
    (h : unusedVisit imports targetDir path true none sys = some v)
    (hv : v.ret = .nil) : v.removeCalled = false := by
  simp only [unusedVisit] at h
  by_cases h1 : path = targetDir
  · simp [h1] at h; subst h; rfl
  · simp only [if_neg h1, Bool.not_true, Bool.false_eq_true, if_false] at h
    cases hs : sliceFrom path (len (targetDir ++ "/")) with
    | none => simp [hs] at h
    | some pkg =>
      simp only [hs] at h
      split_ifs at h with hc
      · rcases sys with _ | _ | _ <;> simp at h <;> subst h <;> simp at hv
      · simp at h; subst h; rfl

theorem pruneNode_file (imports : Packages) (t : String) (fails : String → Bool)
    (parent name : String) :
    pruneNode imports t fails parent (.file name) =
      match unusedVisit imports t (childPath parent name) false none
        (sysAt fails (childPath parent name)) with
      | none => (some (.file name), .crashed)
      | some v =>
        match v.ret with
        | .err => (some (.file name), .failed)
        | _ => (if v.removeCalled then none else some (.file name), .done) := by
  rw [pruneNode]

theorem pruneNode_dir (imports : Packages) (t : String) (fails : String → Bool)
    (parent name : String) (cs : List Node) :
    pruneNode imports t fails parent (.dir name cs) =
      match unusedVisit imports t (childPath parent name) true none
        (sysAt fails (childPath parent name)) with
      | none => (some (.dir name cs), .crashed)
      | some v =>
        match v.ret with
        | .err => (some (.dir name cs), .failed)
        | .skipDir => (if v.removeCalled then none else some (.dir name cs), .done)
        | .nil =>
          (some (.dir name (pruneList imports t fails (childPath parent name) cs).1),
            (pruneList imports t fails (childPath parent name) cs).2) := by
  rw [pruneNode]

theorem pruneList_cons (imports : Packages) (t : String) (fails : String → Bool)
    (parent : String) (n : Node) (ns : List Node) :
    pruneList imports t fails parent (n :: ns) =
      if (pruneNode imports t fails parent n).2 = .done then
        ((pruneNode imports t fails parent n).1.toList ++
            (pruneList imports t fails parent ns).1,
          (pruneList imports t fails parent ns).2)
      else ((pruneNode imports t fails parent n).1.toList ++ ns,
        (pruneNode imports t fails parent n).2) := by
  rw [pruneList]
  rcases h : pruneNode imports t fails parent n with ⟨r, o⟩
  cases o <;> simp

theorem pruneList_nil (imports : Packages) (t : String) (fails : String → Bool)
    (parent : String) : pruneList imports t fails parent [] = ([], .done) := by
  rw [pruneList]
theorem keptList_append (imports : Packages) (t parent : String) (a b : List Node) :
    keptList imports t parent (a ++ b) ↔
      keptList imports t parent a ∧ keptList imports t parent b := by
  induction a with
  | nil => simp [keptList]
  | cons x xs ih => simp [keptList, ih, and_assoc]

theorem pruned_kept (imports : Packages) (t : String) (fails : String → Bool) :
    (∀ n parent, (pruneNode imports t fails parent n).2 = .done →
      keptList imports t parent (pruneNode imports t fails parent n).1.toList) ∧
    (∀ ns parent, (pruneList imports t fails parent ns).2 = .done →
      keptList imports t parent (pruneList imports t fails parent ns).1) := by
  apply Node.induct
  · intro name parent
    rw [pruneNode_file]
    cases hv : unusedVisit imports t (childPath parent name) false none
        (sysAt fails (childPath parent name)) with
    | none => simp
    | some v =>
      rcases v with ⟨rc, ret⟩
      cases ret <;> cases rc <;> simp [keptList, keptNode]
      all_goals exact unusedVisit_kept _ _ _ _ _ _ hv rfl none
  · intro name cs ih parent
    rw [pruneNode_dir]
    cases hv : unusedVisit imports t (childPath parent name) true none
        (sysAt fails (childPath parent name)) with
    | none => simp
    | some v =>
      rcases v with ⟨rc, ret⟩
      cases ret
      · intro hdone
        have hrc : rc = false := unusedVisit_dir_nil _ _ _ _ _ hv rfl
        subst hrc
        simp only [Option.toList, keptList, keptNode, and_true]
        exact ⟨unusedVisit_kept _ _ _ _ _ _ hv rfl none, ih _ hdone⟩
      · cases rc
        · have := unusedVisit_kept _ _ _ _ _ _ hv rfl (sysAt fails (childPath parent name))
          rw [hv] at this
          simp at this
        · simp [keptList]
      · simp
  · intro parent _
    rw [pruneList_nil]
    simp [keptList]
  · intro n ns ihn ihns parent
    rw [pruneList_cons]
    by_cases hd : (pruneNode imports t fails parent n).2 = .done
    · rw [if_pos hd]
      intro h2
      exact (keptList_append _ _ _ _ _).mpr ⟨ihn parent hd, ihns parent h2⟩
    · rw [if_neg hd]
      intro h2
      exact absurd h2 hd

theorem kept_prune_id (imports : Packages) (t : String) (fails : String → Bool) :
    (∀ n parent, keptNode imports t parent n →
      pruneNode imports t fails parent n = (some n, .done)) ∧
    (∀ ns parent, keptList imports t parent ns →
      pruneList imports t fails parent ns = (ns, .done)) := by
  apply Node.induct
  · intro name parent h
    rw [keptNode] at h
    have h' := unusedVisit_kept _ _ _ _ _ _ h rfl (sysAt fails (childPath parent name))
    rw [pruneNode_file, h']
    simp
  · intro name cs ih parent h
    rw [keptNode] at h
    have h' := unusedVisit_kept _ _ _ _ _ _ h.1 rfl (sysAt fails (childPath parent name))
    rw [pruneNode_dir, h']
    simp [ih _ h.2]
  · intro parent _
    rw [pruneList_nil]
  · intro n ns ihn ihns parent h
    rw [keptList] at h
    rw [pruneList_cons, ihn parent h.1, ihns parent h.2]
    simp

theorem emptyPassNode_file (fails : String → Bool) (parent name : String) :
    emptyPassNode fails parent (.file name) = (some (.file name), 0) := by
  rw [emptyPassNode]

theorem emptyPassNode_dir (fails : String → Bool) (parent name : String) (cs : List Node) :
    emptyPassNode fails parent (.dir name cs) =
      if (cs.isEmpty && !fails (childPath parent name)) = true then (none, 1)
      else (some (.dir name (emptyPassList fails (childPath parent name) cs).1),
        (emptyPassList fails (childPath parent name) cs).2) := by
  rw [emptyPassNode]

theorem emptyPassList_nil (fails : String → Bool) (parent : String) :
    emptyPassList fails parent [] = ([], 0) := by
  rw [emptyPassList]

theorem emptyPassList_cons (fails : String → Bool) (parent : String) (n : Node)
    (ns : List Node) :
    emptyPassList fails parent (n :: ns) =
      ((emptyPassNode fails parent n).1.toList ++ (emptyPassList fails parent ns).1,
        (emptyPassNode fails parent n).2 + (emptyPassList fails parent ns).2) := by
  rw [emptyPassList]

theorem emptyPass_kept (imports : Packages) (t : String) (fails : String → Bool) :
    (∀ n parent, keptNode imports t parent n →
      keptList imports t parent (emptyPassNode fails parent n).1.toList) ∧
    (∀ ns parent, keptList imports t parent ns →
      keptList imports t parent (emptyPassList fails parent ns).1) := by
  apply Node.induct
  · intro name parent h
    rw [emptyPassNode_file]
    simp [keptList, h]
  · intro name cs ih parent h
    rw [emptyPassNode_dir]
    rw [keptNode] at h
    split_ifs
    · simp [keptList]
    · simp only [Option.toList, keptList, keptNode, and_true]
      exact ⟨h.1, ih _ h.2⟩
  · intro parent _
    rw [emptyPassList_nil]
    simp [keptList]
  · intro n ns ihn ihns parent h
    rw [keptList] at h
    rw [emptyPassList_cons]
    exact (keptList_append _ _ _ _ _).mpr ⟨ihn parent h.1, ihns parent h.2⟩

theorem emptyPass_zero (fails : String → Bool) :
    (∀ n parent, (emptyPassNode fails parent n).2 = 0 →
      (emptyPassNode fails parent n).1 = some n) ∧
    (∀ ns parent, (emptyPassList fails parent ns).2 = 0 →
      (emptyPassList fails parent ns).1 = ns) := by
  apply Node.induct
  · intro name parent _
    rw [emptyPassNode_file]
  · intro name cs ih parent
    rw [emptyPassNode_dir]
    split_ifs
    · simp
    · intro h
      simp only at h ⊢
      rw [ih _ h]
  · intro parent _
    rw [emptyPassList_nil]
  · intro n ns ihn ihns parent
    rw [emptyPassList_cons]
    intro h
    simp only [Nat.add_eq_zero] at h
    simp only [ihn parent h.1, ihns parent h.2]
    rfl

theorem entryCount_append (a b : List Node) :
    entryCount (a ++ b) = entryCount a + entryCount b := by
  induction a with
  | nil => simp [entryCount]
  | cons x xs ih =>
    cases x <;> simp [entryCount, ih] <;> omega

theorem emptyPass_count (fails : String → Bool) :
    (∀ n parent, entryCount (emptyPassNode fails parent n).1.toList +
      (emptyPassNode fails parent n).2 = entryCount [n]) ∧
    (∀ ns parent, entryCount (emptyPassList fails parent ns).1 +
      (emptyPassList fails parent ns).2 = entryCount ns) := by
  apply Node.induct
  · intro name parent
    rw [emptyPassNode_file]
    simp [entryCount]
  · intro name cs ih parent
    rw [emptyPassNode_dir]
    split_ifs with hc
    · have : cs = [] := by
        simp only [Bool.and_eq_true, List.isEmpty_iff] at hc
        exact hc.1
      subst this
      simp [entryCount]
    · have := ih (childPath parent name)
      simp only [Option.toList, entryCount]
      omega
  · intro parent
    rw [emptyPassList_nil]
    simp [entryCount]
  · intro n ns ihn ihns parent
    rw [emptyPassList_cons]
    have h1 := ihn parent
    have h2 := ihns parent
    have h3 : entryCount (n :: ns) = entryCount [n] + entryCount ns :=
      entryCount_append [n] ns
    simp only [entryCount_append, h3]
    omega

theorem removeEmptyDirs_succ (fails : String → Bool) (t : String) (fuel : Nat)
    (root : List Node) :
    removeEmptyDirs fails t (fuel + 1) root =
      if (emptyPassList fails t root).2 = 0 then some (emptyPassList fails t root).1
      else removeEmptyDirs fails t fuel (emptyPassList fails t root).1 := by
  rw [removeEmptyDirs]
  rcases h : emptyPassList fails t root with ⟨r, k⟩
  cases k <;> simp

theorem removeEmptyDirs_terminates (imports : Packages) (fails : String → Bool) (t : String)
    (fuel : Nat) :
    ∀ root, entryCount root < fuel →
      ∃ r, removeEmptyDirs fails t fuel root = some r ∧
        emptyPassList fails t r = (r, 0) ∧
        (keptList imports t t root → keptList imports t t r) := by
  induction fuel with
  | zero => intro root h; omega
  | succ fuel ih =>
    intro root h
    rw [removeEmptyDirs_succ]
    by_cases hk : (emptyPassList fails t root).2 = 0
    · rw [if_pos hk]
      have hid := (emptyPass_zero fails).2 root t hk
      refine ⟨_, rfl, ?_, ?_⟩
      · rw [hid]
        exact Prod.ext hid hk
      · rw [hid]
        exact id
    · rw [if_neg hk]
      have hc := (emptyPass_count fails).2 root t
      obtain ⟨r, h1, h2, h3⟩ := ih (emptyPassList fails t root).1 (by omega)
      exact ⟨r, h1, h2, fun hkept => h3 ((emptyPass_kept imports t fails).2 root t hkept)⟩

theorem removeEmptyDirs_fixed (fails : String → Bool) (t : String) (fuel : Nat)
    (r : List Node) (h : emptyPassList fails t r = (r, 0)) :
    removeEmptyDirs fails t (fuel + 1) r = some r := by
  rw [removeEmptyDirs_succ, h]
  simp

theorem slice_some (s : String) (lo hi : Int) (h1 : 0 ≤ lo) (h2 : lo ≤ hi)
    (h3 : hi ≤ (len s : Int)) : ∃ r, slice s lo hi = some r := by
  rw [slice, if_pos ⟨h1, h2, h3⟩]
  exact ⟨_, rfl⟩

theorem childPath_assoc (t x name : String) :
    childPath (t ++ "/" ++ x) name = t ++ "/" ++ (x ++ "/" ++ name) := by
  apply String.ext
  simp [childPath]

theorem unusedVisit_deep_file (imports : Packages) (t x name : String) :
    ∃ b, unusedVisit imports t (childPath (t ++ "/" ++ x) name) false none none =
      some ⟨b, .nil⟩ := by
  have hne : childPath (t ++ "/" ++ x) name ≠ t := by
    rw [childPath_assoc]
    exact childPath_ne _ _
  have hdata : (childPath (t ++ "/" ++ x) name).data =
      (t.data ++ '/' :: x.data) ++ '/' :: name.data := by
    simp [childPath, data_slash]
  have hlo : (len (t ++ "/") : Int) ≤ lastIndexSlash (childPath (t ++ "/" ++ x) name) := by
    have := lastIndexChars_ge_append '/' (t.data ++ '/' :: x.data) name.data
    rw [lastIndexSlash, hdata]
    simp only [len, String.data_append, data_slash, List.length_append, List.length_cons,
      List.length_nil, List.length_singleton] at this ⊢
    push_cast at this ⊢
    omega
  have hhi : lastIndexSlash (childPath (t ++ "/" ++ x) name) ≤
      (len (childPath (t ++ "/" ++ x) name) : Int) := by
    have := lastIndexChars_lt '/' (childPath (t ++ "/" ++ x) name).data
    simp only [lastIndexSlash, len]
    omega
  obtain ⟨pkg, hpkg⟩ := slice_some _ _ _ (Int.ofNat_nonneg _) hlo hhi
  simp only [unusedVisit, if_neg hne, hpkg, Bool.not_false, if_true]
  split_ifs
  · exact ⟨true, rfl⟩
  · exact ⟨false, rfl⟩

theorem prune_deep_done (imports : Packages) (t : String) (fails : String → Bool)
    (hio : ∀ p, fails p = false) :
    (∀ n x, (pruneNode imports t fails (t ++ "/" ++ x) n).2 = .done) ∧
    (∀ ns x, (pruneList imports t fails (t ++ "/" ++ x) ns).2 = .done) := by
  have hsys : ∀ p, sysAt fails p = none := fun p => by simp [sysAt, hio p]
  apply Node.induct
  · intro name x
    obtain ⟨b, hb⟩ := unusedVisit_deep_file imports t x name
    rw [pruneNode_file, hsys, hb]
  · intro name cs ih x
    rw [pruneNode_dir, hsys, childPath_assoc, unusedVisit_dir]
    split_ifs
    · rfl
    · exact ih _
  · intro x
    rw [pruneList_nil]
  · intro n ns ihn ihns x
    rw [pruneList_cons, if_pos (ihn x)]
    exact ihns x

theorem prune_root_done (imports : Packages) (t : String) (fails : String → Bool)
    (hio : ∀ p, fails p = false) (root : List Node) (hfiles : noRootFiles root) :
    (pruneList imports t fails t root).2 = .done := by
  have hsys : ∀ p, sysAt fails p = none := fun p => by simp [sysAt, hio p]
  induction root with
  | nil => rw [pruneList_nil]
  | cons n ns ih =>
    have hn : n.isDir = true := hfiles n (by simp)
    have hns : noRootFiles ns := fun m hm => hfiles m (by simp [hm])
    have hd : (pruneNode imports t fails t n).2 = .done := by
      cases n with
      | file name => simp [Node.isDir] at hn
      | dir name cs =>
        rw [pruneNode_dir, hsys]
        have e : childPath t name = t ++ "/" ++ name := rfl
        rw [e, unusedVisit_dir]
        split_ifs
        · rfl
        · exact (prune_deep_done imports t fails hio).2 cs name
    rw [pruneList_cons, if_pos hd]
    exact ih hns

/-- C8. Idempotence of the pruner: on a vendored tree without regular files
directly in the target root and with no failing system call,
`removeUnusedImports` runs to its end, `removeEmptyDirs` then stops (within
one walk more than the tree has entries), and running the two steps again on
the resulting tree with the same Closure leaves the tree as it is: nothing is
deleted. -/
theorem pruner_idempotent (imports : Packages) (targetDir : String) (fails : String → Bool)
    (root : List Node) (hio : ∀ p, fails p = false) (hfiles : noRootFiles root) :
    ∃ t1 t2,
      removeUnusedImports imports targetDir fails root = (t1, .done) ∧
      (∀ fuel, entryCount t1 < fuel → removeEmptyDirs fails targetDir fuel t1 = some t2) ∧
      removeUnusedImports imports targetDir fails t2 = (t2, .done) ∧
      (∀ fuel, 0 < fuel → removeEmptyDirs fails targetDir fuel t2 = some t2) := by
  have hdone := prune_root_done imports targetDir fails hio root hfiles
  have hk1 := (pruned_kept imports targetDir fails).2 root targetDir hdone
  obtain ⟨t2, h1, h2, h3⟩ := removeEmptyDirs_terminates imports fails targetDir
    (entryCount (pruneList imports targetDir fails targetDir root).1 + 1) _ (Nat.lt_succ_self _)
  refine ⟨(pruneList imports targetDir fails targetDir root).1, t2, ?_, ?_, ?_, ?_⟩
  · exact Prod.ext rfl hdone
  · intro fuel hf
    obtain ⟨r, hr1, hr2, _⟩ := removeEmptyDirs_terminates imports fails targetDir fuel _ hf
    rw [hr1]
    -- both runs end in the same tree: more fuel does not change the result
    have : ∀ (a b : Nat) (root : List Node) (x y : List Node),
        removeEmptyDirs fails targetDir a root = some x →
        removeEmptyDirs fails targetDir b root = some y → x = y := by
      intro a
      induction a with
      | zero => intro b root x y hx; simp [removeEmptyDirs] at hx
      | succ a iha =>
        intro b root x y hx hy
        cases b with
        | zero => simp [removeEmptyDirs] at hy
        | succ b =>
          rw [removeEmptyDirs_succ] at hx hy
          split_ifs at hx hy with hc
          · exact Option.some.inj (hx.symm.trans hy)
          · exact iha b _ x y hx hy
    exact congrArg some (this _ _ _ _ _ hr1 h1)
  · exact (kept_prune_id imports targetDir fails).2 t2 targetDir (h3 hk1)
  · intro fuel hf
    obtain ⟨k, rfl⟩ : ∃ k, fuel = k + 1 := ⟨fuel - 1, by omega⟩
    exact removeEmptyDirs_fixed fails targetDir k t2 h2

/-! ### The loop of `collectImports` -/

theorem biUnion_union_left (a b : Packages) (E : String → Packages) :
    (a ∪ b).biUnion E = a.biUnion E ∪ b.biUnion E := by
  ext x
  simp only [Finset.mem_biUnion, Finset.mem_union]
  constructor
  · rintro ⟨p, hp | hp, hx⟩
    · exact Or.inl ⟨p, hp, hx⟩
    · exact Or.inr ⟨p, hp, hx⟩
  · rintro (⟨p, hp, hx⟩ | ⟨p, hp, hx⟩)
    · exact ⟨p, Or.inl hp, hx⟩
    · exact ⟨p, Or.inr hp, hx⟩

theorem collectLoop_zero (E : String → Packages) (s : LoopState) :
    collectLoop E 0 s = if s.packages.card > 0 then none else some ([], s.imports) := rfl

theorem collectLoop_succ (E : String → Packages) (fuel : Nat) (s : LoopState) :
    collectLoop E (fuel + 1) s =
      if s.packages.card > 0 then
        (collectLoop E fuel (loopStep E s)).map fun x => (s :: x.1, x.2)
      else some ([], s.imports) := by
  rw [collectLoop]
  split_ifs
  · cases collectLoop E fuel (loopStep E s) <;> rfl
  · rfl

theorem loopInv_init (E : String → Packages) (discovered : Packages) :
    LoopInv E discovered ⟨∅, discovered, ∅⟩ where
  imports_eq := by simp
  disjoint := by simp
  reach := by
    intro p hp
    simp only [Finset.empty_union] at hp
    exact Reach.base hp
  discovered_sub := by simp
  closed := by simp

theorem loopStep_seen (E : String → Packages) (s : LoopState) :
    (loopStep E s).seenPackages = s.seenPackages ∪ s.packages := rfl

theorem loopStep_packages (E : String → Packages) (s : LoopState) :
    (loopStep E s).packages =
      (s.imports ∪ s.packages.biUnion E).filter fun i => i ∉ s.seenPackages ∪ s.packages := rfl

theorem loopStep_imports (E : String → Packages) (s : LoopState) :
    (loopStep E s).imports = s.imports ∪ s.packages.biUnion E := rfl

theorem loopInv_step (E : String → Packages) (discovered : Packages) (s : LoopState)
    (h : LoopInv E discovered s) : LoopInv E discovered (loopStep E s) where
  imports_eq := by
    rw [loopStep_imports, loopStep_seen, h.imports_eq, biUnion_union_left]
  disjoint := by
    rw [loopStep_packages, loopStep_seen, Finset.disjoint_left]
    intro x hx
    exact (Finset.mem_filter.mp hx).2
  reach := by
    intro p hp
    rw [loopStep_packages, loopStep_seen] at hp
    rcases Finset.mem_union.mp hp with hp | hp
    · exact h.reach p hp
    · have hp' := (Finset.mem_filter.mp hp).1
      rw [h.imports_eq, ← biUnion_union_left] at hp'
      obtain ⟨q, hq, hpq⟩ := Finset.mem_biUnion.mp hp'
      exact Reach.step (h.reach q hq) hpq
  discovered_sub := by
    rw [loopStep_seen]
    exact h.discovered_sub.trans Finset.subset_union_left
  closed := by
    intro p hp x hx
    rw [loopStep_seen] at hp
    rw [loopStep_seen, loopStep_packages]
    by_cases hxs : x ∈ s.seenPackages ∪ s.packages
    · exact Finset.mem_union_left _ hxs
    · refine Finset.mem_union_right _ (Finset.mem_filter.mpr ⟨?_, hxs⟩)
      rw [h.imports_eq, ← biUnion_union_left]
      exact Finset.mem_biUnion.mpr ⟨p, hp, hx⟩

theorem loopInv_exit (E : String → Packages) (discovered : Packages) (s : LoopState)
    (h : LoopInv E discovered s) (he : ¬ s.packages.card > 0) (x : String) :
    x ∈ s.imports ↔ ∃ p, Reach E discovered p ∧ x ∈ E p := by
  have hempty : s.packages = ∅ := Finset.card_eq_zero.mp (by omega)
  have hall : ∀ p, Reach E discovered p → p ∈ s.seenPackages := by
    intro p hp
    induction hp with
    | base hp =>
      have := h.discovered_sub hp
      rwa [hempty, Finset.union_empty] at this
    | step _ hq ih =>
      have := h.closed _ ih hq
      rwa [hempty, Finset.union_empty] at this
  rw [h.imports_eq, Finset.mem_biUnion]
  constructor
  · rintro ⟨p, hp, hx⟩
    exact ⟨p, h.reach p (Finset.mem_union_left _ hp), hx⟩
  · rintro ⟨p, hp, hx⟩
    exact ⟨p, hall p hp, hx⟩

theorem collectLoop_sound (E : String → Packages) (discovered : Packages) (fuel : Nat) :
    ∀ (s : LoopState) (tr : List LoopState) (r : Packages), LoopInv E discovered s →
      collectLoop E fuel s = some (tr, r) →
      (∀ x, x ∈ r ↔ ∃ p, Reach E discovered p ∧ x ∈ E p) ∧
      (∀ st ∈ tr, st.packages.Nonempty ∧ Disjoint st.packages st.seenPackages ∧
        s.seenPackages ⊆ st.seenPackages ∧ ∀ p ∈ st.packages, Reach E discovered p) ∧
      tr.Pairwise (fun a b =>
        a.seenPackages ⊆ b.seenPackages ∧ Disjoint a.packages b.packages) := by
  induction fuel with
  | zero =>
    intro s tr r hinv h
    rw [collectLoop_zero] at h
    split_ifs at h with hc
    simp only [Option.some.injEq, Prod.mk.injEq] at h
    obtain ⟨rfl, rfl⟩ := h
    exact ⟨loopInv_exit E discovered s hinv hc, by simp, List.Pairwise.nil⟩
  | succ fuel ih =>
    intro s tr r hinv h
    rw [collectLoop_succ] at h
    split_ifs at h with hc
    · cases hrec : collectLoop E fuel (loopStep E s) with
      | none => simp [hrec] at h
      | some res =>
        obtain ⟨tr', r'⟩ := res
        simp only [hrec, Option.map_some', Option.some.injEq, Prod.mk.injEq] at h
        obtain ⟨rfl, rfl⟩ := h
        obtain ⟨h1, h2, h3⟩ := ih (loopStep E s) tr' r' (loopInv_step E discovered s hinv) hrec
        refine ⟨h1, ?_, ?_⟩
        · intro st hst
          rcases List.mem_cons.mp hst with rfl | hst
          · exact ⟨Finset.card_pos.mp hc, hinv.disjoint, subset_rfl,
              fun p hp => hinv.reach p (Finset.mem_union_right _ hp)⟩
          · obtain ⟨a, b, c, d⟩ := h2 st hst
            rw [loopStep_seen] at c
            exact ⟨a, b, Finset.subset_union_left.trans c, d⟩
        · refine List.Pairwise.cons ?_ h3
          intro st hst
          obtain ⟨_, b, c, _⟩ := h2 st hst
          rw [loopStep_seen] at c
          refine ⟨Finset.subset_union_left.trans c, ?_⟩
          exact Finset.disjoint_of_subset_left (Finset.subset_union_right.trans c) b.symm
    · simp only [Option.some.injEq, Prod.mk.injEq] at h
      obtain ⟨rfl, rfl⟩ := h
      exact ⟨loopInv_exit E discovered s hinv hc, by simp, List.Pairwise.nil⟩

theorem collectLoop_terminates (E : String → Packages) (discovered : Packages) (U : Packages)
    (hU : ∀ p, Reach E discovered p → p ∈ U) (fuel : Nat) :
    ∀ s : LoopState, LoopInv E discovered s → (U \ s.seenPackages).card ≤ fuel →
      ∃ tr r, collectLoop E fuel s = some (tr, r) ∧
        tr.length ≤ (U \ s.seenPackages).card := by
  have hlt : ∀ s : LoopState, LoopInv E discovered s → s.packages.card > 0 →
      (U \ (loopStep E s).seenPackages).card < (U \ s.seenPackages).card := by
    intro s hinv hc
    obtain ⟨p, hp⟩ := Finset.card_pos.mp hc
    apply Finset.card_lt_card
    rw [loopStep_seen, Finset.ssubset_iff_of_subset]
    · refine ⟨p, Finset.mem_sdiff.mpr ⟨hU p (hinv.reach p (Finset.mem_union_right _ hp)), ?_⟩, ?_⟩
      · exact Finset.disjoint_left.mp hinv.disjoint hp
      · intro h
        exact (Finset.mem_sdiff.mp h).2 (Finset.mem_union_right _ hp)
    · exact Finset.sdiff_subset_sdiff subset_rfl Finset.subset_union_left
  induction fuel with
  | zero =>
    intro s hinv hle
    rw [collectLoop_zero]
    by_cases hc : s.packages.card > 0
    · have := hlt s hinv hc
      omega
    · rw [if_neg hc]
      exact ⟨[], s.imports, rfl, Nat.zero_le _⟩
  | succ fuel ih =>
    intro s hinv hle
    rw [collectLoop_succ]
    by_cases hc : s.packages.card > 0
    · rw [if_pos hc]
      have h1 := hlt s hinv hc
      obtain ⟨tr, r, h2, h3⟩ := ih (loopStep E s) (loopInv_step E discovered s hinv) (by omega)
      refine ⟨s :: tr, r, by rw [h2]; rfl, ?_⟩
      simp only [List.length_cons]
      omega
    · rw [if_neg hc]
      exact ⟨[], s.imports, rfl, Nat.zero_le _⟩

/-! ### `listImports` -/

theorem includeLines_nil (stat : String → Bool) (pkg pkgPath : String) :
    includeLines stat pkg pkgPath [] = some [] := rfl

theorem mem_parseDir (w : World) (libRoot pkgPath : String) (mode : ParseMode)
    (files : List GoFile) (h : parseDir w libRoot pkgPath mode = .ok files) :
    ∃ all, w.readDir pkgPath = some all ∧ ∀ f ∈ files, f ∈ all := by
  simp only [parseDir] at h
  cases hr : w.readDir pkgPath with
  | none => simp [hr] at h
  | some all =>
    simp only [hr] at h
    split_ifs at h
    simp only [Except.ok.injEq] at h
    subst h
    exact ⟨all, rfl, fun f hf => (List.mem_filter.mp hf).1⟩

theorem listImports_some_of_no_preambles (w : World) (rootPackage libRoot : String)
    (hw : ∀ path files, w.readDir path = some files → ∀ f ∈ files, f.preambles = [])
    (pkg : String) : ∃ s, listImports w rootPackage libRoot pkg = some s := by
  simp only [listImports]
  cases hp : parseDir w libRoot (pkgPathOf rootPackage libRoot pkg) .importsOnly with
  | error e => exact ⟨_, rfl⟩
  | ok files =>
    cases hp2 : parseDir w libRoot (pkgPathOf rootPackage libRoot pkg) .parseComments with
    | error e => exact ⟨_, rfl⟩
    | ok parsed =>
      obtain ⟨all, hall, hsub⟩ := mem_parseDir w _ _ _ parsed hp2
      have hnil : (parsed.flatMap fun f => f.preambles.flatMap fun t => split t '\n') = [] := by
        apply List.eq_nil_iff_forall_not_mem.mpr
        intro x hx
        obtain ⟨f, hf, hx⟩ := List.mem_flatMap.mp hx
        rw [hw _ all hall f (hsub f hf)] at hx
        simp at hx
      simp only [preamblePass, hnil, includeLines_nil]
      exact ⟨_, rfl⟩

theorem mem_listImports (w : World) (rootPackage libRoot pkg : String) (s : Packages)
    (h : listImports w rootPackage libRoot pkg = some s) (x : String) :
    x ∈ s ↔ x = pkg ∨ ∃ files,
      parseDir w libRoot (pkgPathOf rootPackage libRoot pkg) .importsOnly = .ok files ∧
      (x ∈ declaredPass rootPackage pkg files ∨ ∃ parsed cgo,
        parseDir w libRoot (pkgPathOf rootPackage libRoot pkg) .parseComments = .ok parsed ∧
        preamblePass w.stat pkg (pkgPathOf rootPackage libRoot pkg) parsed = some cgo ∧
        x ∈ cgo) := by
  simp only [listImports] at h
  cases hp : parseDir w libRoot (pkgPathOf rootPackage libRoot pkg) .importsOnly with
  | error e =>
    simp only [hp, Option.some.injEq] at h
    subst h
    simp
  | ok files =>
    simp only [hp] at h
    cases hp2 : parseDir w libRoot (pkgPathOf rootPackage libRoot pkg) .parseComments with
    | error e =>
      simp only [hp2, Option.some.injEq] at h
      subst h
      simp only [Finset.mem_union, List.mem_toFinset, Finset.mem_singleton]
      constructor
      · rintro (h | h)
        · exact Or.inr ⟨files, rfl, Or.inl h⟩
        · exact Or.inl h
      · rintro (h | ⟨files', hf, h | ⟨_, _, hbad, _⟩⟩)
        · exact Or.inr h
        · rw [← Except.ok.inj hf] at h
          exact Or.inl h
        · exact absurd hbad (by simp)
    | ok parsed =>
      simp only [hp2] at h
      cases hc : preamblePass w.stat pkg (pkgPathOf rootPackage libRoot pkg) parsed with
      | none => simp [hc] at h
      | some cgo =>
        simp only [hc, Option.some.injEq] at h
        subst h
        simp only [Finset.mem_union, List.mem_toFinset, List.mem_append, Finset.mem_singleton]
        constructor
        · rintro ((h | h) | h)
          · exact Or.inr ⟨files, rfl, Or.inl h⟩
          · exact Or.inr ⟨files, rfl, Or.inr ⟨parsed, cgo, rfl, hc, h⟩⟩
          · exact Or.inl h
        · rintro (h | ⟨files', hf, h | ⟨parsed', cgo', hp', hc', h⟩⟩)
          · exact Or.inr h
          · rw [← Except.ok.inj hf] at h
            exact Or.inl (Or.inl h)
          · rw [← Except.ok.inj hp', hc] at hc'
            rw [← Option.some.inj hc'] at h
            exact Or.inl (Or.inr h)

theorem declaredImport_not_internal (rootPackage pkg imp x : String)
    (h : declaredImport rootPackage pkg imp = some x) : isInternal rootPackage x = false := by
  simp only [declaredImport] at h
  split_ifs at h with h1 h2 h3 h4
  · simp only [Option.some.injEq] at h
    subst h
    simp only [isInternal, Bool.or_eq_false_iff, decide_eq_false_iff_not]
    exact ⟨fun e => h3 (Or.inl e), by simpa using fun e => h3 (Or.inr e)⟩
  · simp only [Option.some.injEq] at h
    subst h
    simp only [isInternal, Bool.or_eq_false_iff, decide_eq_false_iff_not]
    exact ⟨fun e => h4 (Or.inl e), by simpa using fun e => h4 (Or.inr e)⟩

theorem mem_declaredPass (rootPackage pkg : String) (files : List GoFile) (x : String) :
    x ∈ declaredPass rootPackage pkg files ↔
      ∃ f ∈ files, ∃ imp ∈ f.imports, declaredImport rootPackage pkg imp = some x := by
  simp only [declaredPass, List.mem_flatMap, List.mem_filterMap]

theorem declaredPass_not_internal (rootPackage pkg : String) (files : List GoFile) (x : String)
    (h : x ∈ declaredPass rootPackage pkg files) : isInternal rootPackage x = false := by
  obtain ⟨f, _, imp, _, himp⟩ := (mem_declaredPass _ _ _ _).mp h
  exact declaredImport_not_internal _ _ _ _ himp

theorem exampleWorld_no_preambles :
    ∀ path files, exampleWorld.readDir path = some files → ∀ f ∈ files, f.preambles = [] := by
  intro path files h f hf
  simp only [exampleWorld] at h
  split_ifs at h <;> simp only [Option.some.injEq] at h <;> subst h <;>
    simp only [List.mem_cons, List.mem_singleton, List.not_mem_nil, or_false] at hf
  · subst hf; rfl
  · rcases hf with rfl | rfl <;> rfl
  · subst hf; rfl

theorem exampleExtractor_spec (p : String) :
    listImports exampleWorld "example.com/app" "vendor" p = some (exampleExtractor p) := by
  obtain ⟨s, hs⟩ := listImports_some_of_no_preambles exampleWorld "example.com/app" "vendor"
    exampleWorld_no_preambles p
  simp [exampleExtractor, hs]

theorem exampleDiscovered_eq : exampleDiscovered = {"example.com/app/cmd"} := by decide

theorem exampleReached_closed (p : String)
    (h : Reach exampleExtractor exampleDiscovered p) : p ∈ exampleReached := by
  have hstep : ∀ q ∈ exampleReached, exampleExtractor q ⊆ exampleReached := by decide
  induction h with
  | base hp =>
    rw [exampleDiscovered_eq] at hp
    rw [Finset.mem_singleton.mp hp]
    decide
  | step _ hq ih => exact hstep _ ih hq

theorem countP_le_one_of_disjoint (tr : List LoopState)
    (h : tr.Pairwise (fun a b => Disjoint a.packages b.packages)) (p : String) :
    tr.countP (fun st => decide (p ∈ st.packages)) ≤ 1 := by
  induction tr with
  | nil => simp
  | cons a tl ih =>
    rw [List.pairwise_cons] at h
    rw [List.countP_cons]
    by_cases hp : p ∈ a.packages
    · have hz : tl.countP (fun st => decide (p ∈ st.packages)) = 0 := by
        rw [List.countP_eq_zero]
        intro b hb
        have := Finset.disjoint_left.mp (h.1 b hb) hp
        simpa using this
      simp [hz, hp]
    · have := ih h.2
      simp [hp, this]

/-- C9. Termination of the loop of `collectImports`, with at most one extraction
for each package: when the identifiers reached from the discovered packages
through the extractor `E` all lie in a finite set `U`, the loop ends within
`U.card` turns; at the start of every turn the frontier is not empty and is
disjoint from `seenPackages`; `seenPackages` only grows; the frontiers of
different turns are disjoint, so that `listImports` is called for a package in
at most one turn. -/
theorem collectImports_terminates (E : String → Packages) (discovered U : Packages)
    (hU : ∀ p, Reach E discovered p → p ∈ U) (fuel : Nat) (hfuel : U.card ≤ fuel) :
    ∃ tr r, collectLoop E fuel ⟨∅, discovered, ∅⟩ = some (tr, r) ∧
      tr.length ≤ U.card ∧
      (∀ st ∈ tr, st.packages.Nonempty ∧ Disjoint st.packages st.seenPackages) ∧
      tr.Pairwise (fun a b =>
        a.seenPackages ⊆ b.seenPackages ∧ Disjoint a.packages b.packages) ∧
      (∀ p, tr.countP (fun st => decide (p ∈ st.packages)) ≤ 1) := by
  have hinv := loopInv_init E discovered
  obtain ⟨tr, r, h1, h2⟩ := collectLoop_terminates E discovered U hU fuel _ hinv
    (by simpa using hfuel)
  obtain ⟨_, h4, h5⟩ := collectLoop_sound E discovered fuel _ tr r hinv h1
  refine ⟨tr, r, h1, by simpa using h2, fun st hst => ⟨(h4 st hst).1, (h4 st hst).2.1⟩, h5, ?_⟩
  exact countP_le_one_of_disjoint tr (h5.imp fun h => h.2)

/-- C9, at a concrete input: the project `example.com/app`. -/
theorem collectImports_terminates_witness :
    (∀ p, Reach exampleExtractor exampleDiscovered p → p ∈ exampleReached) ∧
    exampleReached.card ≤ 2 ∧
    ∃ tr r, collectLoop exampleExtractor 2 ⟨∅, exampleDiscovered, ∅⟩ = some (tr, r) ∧
      tr.length ≤ exampleReached.card ∧
      (∀ st ∈ tr, st.packages.Nonempty ∧ Disjoint st.packages st.seenPackages) ∧
      tr.Pairwise (fun a b =>
        a.seenPackages ⊆ b.seenPackages ∧ Disjoint a.packages b.packages) ∧
      (∀ p, tr.countP (fun st => decide (p ∈ st.packages)) ≤ 1) :=
  ⟨exampleReached_closed, by decide,
    collectImports_terminates exampleExtractor exampleDiscovered exampleReached
      exampleReached_closed 2 (by decide)⟩

/-- C2, as stated, fails: in the project `example.com/app` the package
`github.com/foo/bar` enters the frontier in the second turn and its file
`bar_test.go` declares `github.com/foo/check`, an identifier that is neither
standard-library nor internal; the file filter `noVendoredTests` keeps the test
file of the vendored package from the parser, `listImports` delivers the package
alone, and `github.com/foo/check` is not in the Closure. -/
theorem closure_misses_vendored_test_import :
    (collectLoop exampleExtractor 2 ⟨∅, exampleDiscovered, ∅⟩).map
        (fun x => (x.1.map (fun st => st.packages), x.2)) =
      some ([{"example.com/app/cmd"}, {"github.com/foo/bar"}],
        {"example.com/app/cmd", "github.com/foo/bar"}) ∧
    pkgPathOf "example.com/app" "vendor" "github.com/foo/bar" = "vendor/github.com/foo/bar" ∧
    (exampleWorld.readDir "vendor/github.com/foo/bar").map
        (fun files => files.map fun f => (f.name, f.imports)) =
      some [("bar.go", ["strings"]), ("bar_test.go", ["testing", "github.com/foo/check"])] ∧
    declaredImport "example.com/app" "github.com/foo/bar" "github.com/foo/check" =
      some "github.com/foo/check" ∧
    noVendoredTests "vendor" "vendor/github.com/foo/bar" "bar_test.go" = false ∧
    listImports exampleWorld "example.com/app" "vendor" "github.com/foo/bar" =
      some {"github.com/foo/bar"} ∧
    "github.com/foo/check" ∉ ({"example.com/app/cmd", "github.com/foo/bar"} : Packages) := by
  decide

/-- C2, amended. Reachability completeness of the Closure: when the identifiers
reached from the discovered packages through the extractor `E` lie in a finite
set `U`, `collectImports` returns, and it returns exactly the identifiers that
`E` delivers for a package reached from a discovered one by zero or more steps
of `E`. In particular everything delivered for a package that enters the
frontier is in the Closure; when `E` is `listImports` on the reached packages,
this holds for every identifier that the declared-import pass sends for
an import of a file that the imports-only parse of the package directory accepts
(for a package below the vendor directory the test files are not among them,
and there is no such file when that parse fails). -/
theorem collectImports_reachable (E : String → Packages) (discovered U : Packages)
    (hU : ∀ p, Reach E discovered p → p ∈ U) (fuel : Nat) (hfuel : U.card ≤ fuel) :
    ∃ tr r, collectLoop E fuel ⟨∅, discovered, ∅⟩ = some (tr, r) ∧
      collectImports E fuel discovered = some r ∧
      (∀ x, x ∈ r ↔ ∃ p, Reach E discovered p ∧ x ∈ E p) ∧
      (∀ st ∈ tr, ∀ p ∈ st.packages, E p ⊆ r) ∧
      (∀ (w : World) (rootPackage libRoot : String),
        (∀ p, Reach E discovered p → listImports w rootPackage libRoot p = some (E p)) →
        ∀ st ∈ tr, ∀ p ∈ st.packages, ∀ files,
          parseDir w libRoot (pkgPathOf rootPackage libRoot p) .importsOnly = .ok files →
          ∀ f ∈ files, ∀ imp ∈ f.imports, ∀ x,
            declaredImport rootPackage p imp = some x → x ∈ r) := by
  have hinv := loopInv_init E discovered
  obtain ⟨tr, r, h1, _⟩ := collectLoop_terminates E discovered U hU fuel _ hinv
    (by simpa using hfuel)
  obtain ⟨h3, h4, _⟩ := collectLoop_sound E discovered fuel _ tr r hinv h1
  have hsub : ∀ st ∈ tr, ∀ p ∈ st.packages, E p ⊆ r := by
    intro st hst p hp x hx
    exact (h3 x).mpr ⟨p, (h4 st hst).2.2.2 p hp, hx⟩
  refine ⟨tr, r, h1, by simp [collectImports, h1], h3, hsub, ?_⟩
  intro w rootPackage libRoot hE st hst p hp files hfiles f hf imp himp x hx
  apply hsub st hst p hp
  have hreach : Reach E discovered p := (h4 st hst).2.2.2 p hp
  exact (mem_listImports w rootPackage libRoot p (E p) (hE p hreach) x).mpr
    (Or.inr ⟨files, hfiles, Or.inl ((mem_declaredPass _ _ _ _).mpr ⟨f, hf, imp, himp, hx⟩)⟩)

/-- C2 amended, at a concrete input: the project `example.com/app`. -/
theorem collectImports_reachable_witness :
    (∀ p, Reach exampleExtractor exampleDiscovered p → p ∈ exampleReached) ∧
    exampleReached.card ≤ 3 ∧
    ∃ tr r, collectLoop exampleExtractor 3 ⟨∅, exampleDiscovered, ∅⟩ = some (tr, r) ∧
      collectImports exampleExtractor 3 exampleDiscovered = some r ∧
      (∀ x, x ∈ r ↔ ∃ p, Reach exampleExtractor exampleDiscovered p ∧ x ∈ exampleExtractor p) ∧
      (∀ st ∈ tr, ∀ p ∈ st.packages, exampleExtractor p ⊆ r) ∧
      (∀ (w : World) (rootPackage libRoot : String),
        (∀ p, Reach exampleExtractor exampleDiscovered p →
          listImports w rootPackage libRoot p = some (exampleExtractor p)) →
        ∀ st ∈ tr, ∀ p ∈ st.packages, ∀ files,
          parseDir w libRoot (pkgPathOf rootPackage libRoot p) .importsOnly = .ok files →
          ∀ f ∈ files, ∀ imp ∈ f.imports, ∀ x,
            declaredImport rootPackage p imp = some x → x ∈ r) :=
  ⟨exampleReached_closed, by decide,
    collectImports_reachable exampleExtractor exampleDiscovered exampleReached
      exampleReached_closed 3 (by decide)⟩

/-- C1, as stated, fails: the Closure of the project `example.com/app` contains
the internal package `example.com/app/cmd`, which `listImports` sends back
through `util.OneStr(pkg)`. -/
theorem closure_contains_internal :
    collectImports exampleExtractor 2 exampleDiscovered =
        some {"example.com/app/cmd", "github.com/foo/bar"} ∧
      "example.com/app/cmd" ∈ ({"example.com/app/cmd", "github.com/foo/bar"} : Packages) ∧
      hasPrefix "example.com/app/cmd" ("example.com/app" ++ "/") = true := by
  decide

/-- C1, amended. When `E` is what `listImports` delivers for the packages reached
from the discovered ones, a member of the Closure that is internal (equal to the
root package or below it) is one of the packages that `listPackages` discovered
or was sent by the foreign-preamble pass of a reached package; the
declared-import pass sends no internal identifier. -/
theorem closure_internal_members (w : World) (rootPackage libRoot : String)
    (E : String → Packages) (discovered : Packages)
    (hE : ∀ p, Reach E discovered p → listImports w rootPackage libRoot p = some (E p))
    (fuel : Nat) (r : Packages)
    (hr : collectImports E fuel discovered = some r) (x : String) (hx : x ∈ r)
    (hint : isInternal rootPackage x = true) :
    (x ∈ discovered ∨ ∃ p parsed cgo, Reach E discovered p ∧
        parseDir w libRoot (pkgPathOf rootPackage libRoot p) .parseComments = .ok parsed ∧
        preamblePass w.stat p (pkgPathOf rootPackage libRoot p) parsed = some cgo ∧ x ∈ cgo) ∧
      (∀ pkg files y, y ∈ declaredPass rootPackage pkg files →
        isInternal rootPackage y = false) := by
  refine ⟨?_, fun pkg files y hy => declaredPass_not_internal _ _ _ _ hy⟩
  have hinv := loopInv_init E discovered
  obtain ⟨tr, hloop⟩ : ∃ tr, collectLoop E fuel ⟨∅, discovered, ∅⟩ = some (tr, r) := by
    simp only [collectImports, Option.map_eq_some', Prod.exists, exists_eq_right] at hr
    exact hr
  obtain ⟨h3, _, _⟩ := collectLoop_sound E discovered fuel _ tr r hinv hloop
  -- an internal identifier delivered for a reached package is the package itself or
  -- comes from a preamble
  have key : ∀ p, Reach E discovered p → ∀ y, y ∈ E p → isInternal rootPackage y = true →
      y = p ∨ ∃ parsed cgo,
        parseDir w libRoot (pkgPathOf rootPackage libRoot p) .parseComments = .ok parsed ∧
        preamblePass w.stat p (pkgPathOf rootPackage libRoot p) parsed = some cgo ∧
        y ∈ cgo := by
    intro p hp y hy hyi
    rcases (mem_listImports w rootPackage libRoot p (E p) (hE p hp) y).mp hy with
      h | ⟨files, _, h | ⟨parsed, cgo, h1, h2, h⟩⟩
    · exact Or.inl h
    · have := declaredPass_not_internal _ _ _ _ h
      rw [hyi] at this
      exact absurd this (by simp)
    · exact Or.inr ⟨parsed, cgo, h1, h2, h⟩
  have hreach : ∀ p, Reach E discovered p → isInternal rootPackage p = true →
      p ∈ discovered ∨ ∃ q parsed cgo, Reach E discovered q ∧
        parseDir w libRoot (pkgPathOf rootPackage libRoot q) .parseComments = .ok parsed ∧
        preamblePass w.stat q (pkgPathOf rootPackage libRoot q) parsed = some cgo ∧
        p ∈ cgo := by
    intro p hp
    induction hp with
    | base hp => exact fun _ => Or.inl hp
    | step hp' hq ih =>
      intro hi
      rcases key _ hp' _ hq hi with h | ⟨parsed, cgo, h1, h2, h⟩
      · rw [h]
        rw [h] at hi
        exact ih hi
      · exact Or.inr ⟨_, parsed, cgo, hp', h1, h2, h⟩
  obtain ⟨p, hp, hxp⟩ := (h3 x).mp hx
  rcases key p hp x hxp hint with h | ⟨parsed, cgo, h1, h2, h⟩
  · rw [h]
    rw [h] at hint
    exact hreach p hp hint
  · exact Or.inr ⟨p, parsed, cgo, hp, h1, h2, h⟩

/-- C1 amended, at a concrete input: the internal member `example.com/app/cmd` of
the Closure of the project `example.com/app` is a discovered package. -/
theorem closure_internal_members_witness :
    (∀ p, Reach exampleExtractor exampleDiscovered p →
      listImports exampleWorld "example.com/app" "vendor" p = some (exampleExtractor p)) ∧
    collectImports exampleExtractor 2 exampleDiscovered =
      some {"example.com/app/cmd", "github.com/foo/bar"} ∧
    "example.com/app/cmd" ∈ ({"example.com/app/cmd", "github.com/foo/bar"} : Packages) ∧
    isInternal "example.com/app" "example.com/app/cmd" = true ∧
    ("example.com/app/cmd" ∈ exampleDiscovered ∨ ∃ p parsed cgo,
        Reach exampleExtractor exampleDiscovered p ∧
        parseDir exampleWorld "vendor" (pkgPathOf "example.com/app" "vendor" p)
          .parseComments = .ok parsed ∧
        preamblePass exampleWorld.stat p (pkgPathOf "example.com/app" "vendor" p) parsed =
          some cgo ∧ "example.com/app/cmd" ∈ cgo) ∧
      (∀ pkg files y, y ∈ declaredPass "example.com/app" pkg files →
        isInternal "example.com/app" y = false) :=
  ⟨fun p _ => exampleExtractor_spec p, by decide, by decide, by decide,
    closure_internal_members exampleWorld "example.com/app" "vendor" exampleExtractor
      exampleDiscovered (fun p _ => exampleExtractor_spec p) 2
      {"example.com/app/cmd", "github.com/foo/bar"}
      (by decide) "example.com/app/cmd" (by decide) (by decide)⟩

theorem exampleVendor_noRootFiles : noRootFiles exampleVendor := by
  unfold noRootFiles
  decide

/-- C8, at a concrete input: the vendor directory of the project
`example.com/app` with the Closure `{"github.com/foo/bar"}`. -/
theorem pruner_idempotent_witness :
    (∀ p, (fun _ : String => false) p = false) ∧ noRootFiles exampleVendor ∧
    ∃ t1 t2,
      removeUnusedImports {"github.com/foo/bar"} "vendor" (fun _ => false) exampleVendor =
        (t1, .done) ∧
      (∀ fuel, entryCount t1 < fuel →
        removeEmptyDirs (fun _ => false) "vendor" fuel t1 = some t2) ∧
      removeUnusedImports {"github.com/foo/bar"} "vendor" (fun _ => false) t2 = (t2, .done) ∧
      (∀ fuel, 0 < fuel → removeEmptyDirs (fun _ => false) "vendor" fuel t2 = some t2) :=
  ⟨fun _ => rfl, exampleVendor_noRootFiles,
    pruner_idempotent {"github.com/foo/bar"} "vendor" (fun _ => false) exampleVendor
      (fun _ => rfl) exampleVendor_noRootFiles⟩

/-! ### `listPackages` -/

/-- C6. A parse error stops the discovery: in `brokenProject` the directory `a`
fails to parse, the walk function returns the error, and `filepath.Walk` ends
there. The directory `b`, which comes later and holds a package (visited on
its own it would be added), and the child `a/sub` are never visited; only the
root package is returned. -/
theorem listPackages_stops_at_parse_error :
    listPackages "example.com/app" "vendor" brokenParse brokenProject = {"example.com/app"} ∧
      "example.com/app/b" ∉ listPackages "example.com/app" "vendor" brokenParse brokenProject ∧
      "example.com/app/a/sub" ∉
        listPackages "example.com/app" "vendor" brokenParse brokenProject ∧
      (walkPackages "example.com/app" "vendor" brokenParse "." brokenProject ∅).2 = .err ∧
      listPackagesVisit "example.com/app" "vendor" brokenParse ∅ "b" true false =
        ({"example.com/app/b"}, .nil) ∧
      listPackagesVisit "example.com/app" "vendor" brokenParse ∅ "a/sub" true false =
        ({"example.com/app/a/sub"}, .nil) := by
  decide

/-! ### `cleanup` -/

/-- C5, as stated, fails: in the project `example.com/app` the removal of the
unused directory `vendor/github.com/foo/baz` is refused, `removeUnusedImports`
returns that error, `removeEmptyDirs` runs and returns `nil`, and `cleanup`
logs the error and returns `nil`. -/
theorem cleanup_returns_nil_on_error :
    removeUnusedStep "vendor" bazLocked {"example.com/app/cmd", "github.com/foo/bar"}
        exampleVendor = .returned exampleVendorAfterFailure (some .other) ∧
    cleanup "/go" "/go/src/example.com/app" true exampleCollect
        (removeUnusedStep "vendor" bazLocked) (removeEmptyStep "vendor" bazLocked 8)
        exampleVendor =
      .returned none [.other] exampleVendorAfterFailure := by
  decide

/-- C5, amended. In a run of `cleanup` in which both pruning steps return and
`removeUnusedImports` or `removeEmptyDirs` returns an error, `cleanup` returns
`nil`; each error returned is logged, and `removeEmptyDirs` has run on the tree
that `removeUnusedImports` left, whether or not that step failed. -/
theorem cleanup_logs_and_returns_nil {σ : Type} (gopath dir : String) (srcExists : Bool)
    (collect : String → Option Packages) (removeUnused : Packages → σ → Step σ)
    (removeEmpty : σ → Step σ) (tree : σ) (rootPackage : String) (imports : Packages)
    (t1 t2 : σ) (e1 e2 : Option SysErr)
    (hroot : guessRootPackage gopath dir srcExists = some rootPackage)
    (hcollect : collect rootPackage = some imports)
    (h1 : removeUnused imports tree = .returned t1 e1)
    (h2 : removeEmpty t1 = .returned t2 e2)
    (herr : e1 ≠ none ∨ e2 ≠ none) :
    cleanup gopath dir srcExists collect removeUnused removeEmpty tree =
        .returned none (e1.toList ++ e2.toList) t2 ∧
      e1.toList ++ e2.toList ≠ [] := by
  refine ⟨by simp only [cleanup, hroot, hcollect, h1, h2], ?_⟩
  rcases herr with h | h
  · cases e1 with
    | none => exact absurd rfl h
    | some e => simp
  · cases e2 with
    | none => exact absurd rfl h
    | some e => cases e1 <;> simp

/-- C5 amended, at a concrete input: the run of `cleanup` on the project
`example.com/app` in which the removal of `baz` is refused. -/
theorem cleanup_logs_and_returns_nil_witness :
    guessRootPackage "/go" "/go/src/example.com/app" true = some "example.com/app" ∧
    exampleCollect "example.com/app" = some {"example.com/app/cmd", "github.com/foo/bar"} ∧
    removeUnusedStep "vendor" bazLocked {"example.com/app/cmd", "github.com/foo/bar"}
      exampleVendor = .returned exampleVendorAfterFailure (some .other) ∧
    removeEmptyStep "vendor" bazLocked 8 exampleVendorAfterFailure =
      .returned exampleVendorAfterFailure none ∧
    ((some SysErr.other) ≠ none ∨ (none : Option SysErr) ≠ none) ∧
    cleanup "/go" "/go/src/example.com/app" true exampleCollect
        (removeUnusedStep "vendor" bazLocked) (removeEmptyStep "vendor" bazLocked 8)
        exampleVendor =
      .returned none ((some SysErr.other).toList ++ (none : Option SysErr).toList)
        exampleVendorAfterFailure ∧
    (some SysErr.other).toList ++ (none : Option SysErr).toList ≠ [] :=
  ⟨by decide, by decide, by decide, by decide, by decide,
    cleanup_logs_and_returns_nil "/go" "/go/src/example.com/app" true exampleCollect
      (removeUnusedStep "vendor" bazLocked) (removeEmptyStep "vendor" bazLocked 8)
      exampleVendor "example.com/app" {"example.com/app/cmd", "github.com/foo/bar"}
      exampleVendorAfterFailure exampleVendorAfterFailure (some .other) none
      (by decide) (by decide) (by decide) (by decide) (by decide)⟩

/-! ### The declared-import pass -/

theorem splitChars_head (c : Char) (s : List Char) :
    (splitChars c s).head? = some (s.takeWhile fun x => x ≠ c) := by
  induction s with
  | nil => rfl
  | cons x xs ih =>
    by_cases hx : x = c
    · simp [splitChars, hx]
    · cases hs : splitChars c xs with
      | nil => simp [hs] at ih
      | cons seg rest =>
        simp only [hs, List.head?_cons, Option.some.injEq] at ih
        simp [splitChars, hx, hs, ih]

theorem split_headD (s : String) :
    (split s '/').headD "" = ⟨s.data.takeWhile fun x => x ≠ '/'⟩ := by
  have h := splitChars_head '/' s.data
  cases hs : splitChars '/' s.data with
  | nil => simp [hs] at h
  | cons seg rest =>
    simp only [hs, List.head?_cons, Option.some.injEq] at h
    simp [split, hs, h]

theorem hasPrefix_iff (s pre : String) :
    hasPrefix s pre = true ↔ ∃ t : String, s = pre ++ t := by
  simp only [hasPrefix, List.isPrefixOf_iff_prefix]
  constructor
  · rintro ⟨t, ht⟩
    exact ⟨⟨t⟩, String.ext (by simp [ht])⟩
  · rintro ⟨t, rfl⟩
    exact ⟨t.data, by simp⟩

/-- C7. Declared-import filter: the declared-import pass of `listImports` sends
an identifier `r` for the import path `imp` of a file of the package `pkg`
exactly when the first `/`-separated segment of `imp` contains a dot and `r`
is the resolved identifier, with `r` neither the root package nor prefixed by
`rootPackage + "/"`; the resolved identifier is `Clean(Join(pkg, imp))` when the
first segment is `.` or `..` and `imp` otherwise. A file of `root/lib/a` that
imports `./b` resolves to `root/lib/a/b` and nothing is sent. -/
theorem declaredImport_iff (rootPackage pkg imp r : String) :
    (declaredImport rootPackage pkg imp = some r ↔
      '.' ∈ imp.data.takeWhile (fun x => x ≠ '/') ∧
      r = (if imp.data.takeWhile (fun x => x ≠ '/') = ['.'] ∨
              imp.data.takeWhile (fun x => x ≠ '/') = ['.', '.']
            then filepathClean (filepathJoin pkg imp) else imp) ∧
      r ≠ rootPackage ∧ ¬ ∃ t : String, r = rootPackage ++ "/" ++ t) ∧
    filepathClean (filepathJoin "root/lib/a" "./b") = "root/lib/a/b" ∧
    declaredImport "root" "root/lib/a" "./b" = none := by
  refine ⟨?_, by decide, by decide⟩
  have hfirst := split_headD imp
  have e1 : ∀ l : List Char, ((⟨l⟩ : String) = ".") ↔ l = ['.'] := by
    intro l
    rw [String.ext_iff]
  have e2 : ∀ l : List Char, ((⟨l⟩ : String) = "..") ↔ l = ['.', '.'] := by
    intro l
    rw [String.ext_iff]
  have hpre : ∀ x : String, hasPrefix x (rootPackage ++ "/") = true ↔
      ∃ t : String, x = rootPackage ++ "/" ++ t := fun x => hasPrefix_iff x _
  simp only [declaredImport, hfirst, e1, e2, containsDot]
  generalize (if imp.data.takeWhile (fun x => x ≠ '/') = ['.'] ∨
      imp.data.takeWhile (fun x => x ≠ '/') = ['.', '.']
    then filepathClean (filepathJoin pkg imp) else imp) = res
  by_cases hdot : '.' ∈ imp.data.takeWhile (fun x => x ≠ '/')
  · have hc : (List.takeWhile (fun x => decide (x ≠ '/')) imp.data).contains '.' = true := by
      simpa using hdot
    simp only [hc, Bool.not_true, Bool.false_eq_true, if_false, hdot, true_and]
    by_cases hint : res = rootPackage ∨ hasPrefix res (rootPackage ++ "/") = true
    · rw [if_pos hint]
      constructor
      · intro h; simp at h
      · rintro ⟨rfl, h1, h2⟩
        rcases hint with h | h
        · exact absurd h h1
        · exact absurd ((hpre _).mp h) h2
    · rw [if_neg hint]
      constructor
      · intro h
        simp only [Option.some.injEq] at h
        subst h
        exact ⟨rfl, fun e => hint (Or.inl e), fun e => hint (Or.inr ((hpre _).mpr e))⟩
      · rintro ⟨rfl, _, _⟩
        rfl
  · have hc : (List.takeWhile (fun x => decide (x ≠ '/')) imp.data).contains '.' = false := by
      simpa using hdot
    simp only [hc, Bool.not_false, if_true]
    constructor
    · intro h; simp at h
    · intro h; exact absurd h.1 hdot

/-! ### The foreign-preamble pass -/

/-- C10. The foreign-preamble pass misses a quoted include path that is followed
by other text, and dies on the bare directive. On the line
`#include "native/foo.h" // x`, with `native/` on disk, the rule of the claim
sends `github.com/foo/bar/native` (the directory of the quoted path);
`listImports` takes `line[10 : len(line)-1]`, everything up to the last
character of the line, as the path and sends nothing, while the same directive
without the comment does send the identifier. On the line `#include "` the
slice is `line[10:9]`, out of range. -/
theorem includeLine_misses_quoted_path :
    includeLine (fun p => p = "vendor/github.com/foo/bar/native") "github.com/foo/bar"
        "vendor/github.com/foo/bar" "#include \"native/foo.h\" // x" = some [] ∧
      includeLineSpec (fun p => p = "vendor/github.com/foo/bar/native") "github.com/foo/bar"
        "vendor/github.com/foo/bar" "#include \"native/foo.h\" // x" =
          ["github.com/foo/bar/native"] ∧
      slice "#include \"native/foo.h\" // x" 10
          ((len "#include \"native/foo.h\" // x" : Int) - 1) = some "native/foo.h\" // " ∧
      includeLine (fun p => p = "vendor/github.com/foo/bar/native") "github.com/foo/bar"
        "vendor/github.com/foo/bar" "#include \"native/foo.h\"" =
          some ["github.com/foo/bar/native"] ∧
      includeLine (fun p => p = "vendor/github.com/foo/bar/native") "github.com/foo/bar"
        "vendor/github.com/foo/bar" "#include \"" = none ∧
      slice "#include \"" 10 ((len "#include \"" : Int) - 1) = none := by
  decide

theorem includeLine_bare_directive (stat : String → Bool) (pkg pkgPath : String) :
    includeLine stat pkg pkgPath "#include \"" = none := by
  have h : slice (trimSpace "#include \"") 10 ((len (trimSpace "#include \"") : Int) - 1) =
      none := by decide
  have hp : hasPrefix (trimSpace "#include \"") "#include \"" = true := by decide
  simp only [includeLine, hp, if_true, h]

theorem slice_quoted (P : String) :
    slice ("#include \"" ++ P ++ "\"") 10 ((len ("#include \"" ++ P ++ "\"") : Int) - 1) =
      some P := by
  have h := slice_mid "#include \"".data P.data ['"']
  have e1 : ("#include \"" ++ P ++ "\"" : String) = ⟨"#include \"".data ++ P.data ++ ['"']⟩ :=
    String.ext (by simp)
  have e2 : ((len ("#include \"" ++ P ++ "\"") : Int) - 1) =
      (("#include \"".data.length + P.data.length : Nat) : Int) := by
    have : len ("#include \"" ++ P ++ "\"") = "#include \"".data.length + P.data.length + 1 := by
      simp only [len, String.data_append, List.length_append]
      rfl
    rw [this]
    push_cast
    omega
  have e3 : (("#include \"".data.length : Nat) : Int) = 10 := rfl
  rw [e2, e1, ← e3]
  exact h

/-- The foreign-preamble pass on a directive that ends with its closing quote:
for a line whose trimmed text is `#include "`, a path `P` and the closing quote
as its last character, the slice `line[10 : len(line)-1]` is `P`, and with `d`
the directory of `P` the pass sends `Clean(Join(pkg, d))` exactly when `d` is not
`.` and `os.Stat` finds `Join(pkgPath, d)`. An angle-bracket include sends
nothing. -/
theorem includeLine_quoted (stat : String → Bool) (pkg pkgPath line P : String)
    (h : trimSpace line = "#include \"" ++ P ++ "\"") :
    slice (trimSpace line) 10 ((len (trimSpace line) : Int) - 1) = some P ∧
    includeLine stat pkg pkgPath line =
        some (if filepathDir P ≠ "." ∧ stat (filepathJoin pkgPath (filepathDir P)) = true
          then [filepathClean (filepathJoin pkg (filepathDir P))] else []) ∧
      (∀ other : String, hasPrefix (trimSpace other) "#include <" = true →
        includeLine stat pkg pkgPath other = some []) ∧
      includeLine (fun p => p = "vendor/github.com/foo/bar/native") "github.com/foo/bar"
        "vendor/github.com/foo/bar" "  #include \"native/foo.h\"" =
          some ["github.com/foo/bar/native"] := by
  refine ⟨by rw [h]; exact slice_quoted P, ?_, ?_, by decide⟩
  · have hp : hasPrefix ("#include \"" ++ P ++ "\"") "#include \"" = true :=
      (hasPrefix_iff _ _).mpr ⟨P ++ "\"", String.append_assoc _ _ _⟩
    simp only [includeLine, h, hp, if_true, slice_quoted]
    by_cases h1 : filepathDir P = "."
    · simp [h1]
    · by_cases h2 : stat (filepathJoin pkgPath (filepathDir P)) = true
      · simp [h1, h2]
      · simp [h1, h2]
  · intro other ho
    obtain ⟨t, ht⟩ := (hasPrefix_iff _ _).mp ho
    have hn : hasPrefix (trimSpace other) "#include \"" = false := by
      rw [ht]
      simp only [hasPrefix, String.data_append]
      rfl
    simp only [includeLine, hn]
    rfl

/-! ### The file rule of `removeUnusedImports` below the first level -/

theorem isSuffixOf_below_slash (suf pre name : List Char) (hs : '/' ∉ suf) :
    suf.isSuffixOf (pre ++ '/' :: name) = suf.isSuffixOf name := by
  rw [Bool.eq_iff_iff, List.isSuffixOf_iff_suffix, List.isSuffixOf_iff_suffix]
  constructor
  · rintro ⟨u, hu⟩
    rcases List.append_eq_append_iff.mp hu with ⟨a, _, h2⟩ | ⟨c, _, h2⟩
    · exfalso
      exact hs (by rw [h2]; simp)
    · -- `suf` ends inside `'/' :: name`
      cases c with
      | nil =>
        exfalso
        rw [List.nil_append] at h2
        exact hs (by rw [← h2]; simp)
      | cons x c =>
        simp only [List.cons_append, List.cons.injEq] at h2
        exact ⟨c, h2.2.symm⟩
  · rintro ⟨u, hu⟩
    exact ⟨pre ++ '/' :: u, by simp [← hu]⟩

theorem unusedVisit_file_rule (imports : Packages) (t q name : String)
    (sys : Option SysErr) (hname : '/' ∉ name.data) :
    ∃ v, unusedVisit imports t (t ++ "/" ++ q ++ "/" ++ name) false none sys = some v ∧
      (v.removeCalled = true ↔
        hasSuffix name "_test.go" = true ∨ (hasSuffix name ".go" = true ∧ q ∉ imports)) := by
  have hne : t ++ "/" ++ q ++ "/" ++ name ≠ t := by
    have := childPath_ne t (q ++ "/" ++ name)
    rwa [show t ++ "/" ++ (q ++ "/" ++ name) = t ++ "/" ++ q ++ "/" ++ name from
      String.ext (by simp)] at this
  have hdata : (t ++ "/" ++ q ++ "/" ++ name).data =
      (t.data ++ '/' :: q.data) ++ '/' :: name.data := by simp [data_slash]
  have hlast : lastIndexSlash (t ++ "/" ++ q ++ "/" ++ name) =
      (((t.data ++ ['/']).length + q.data.length : Nat) : Int) := by
    rw [lastIndexSlash, hdata, lastIndexChars_append_cons '/' _ _ hname]
    simp only [List.length_append, List.length_cons, List.length_nil]
    push_cast
    omega
  have hslice : slice (t ++ "/" ++ q ++ "/" ++ name) (len (t ++ "/"))
      (lastIndexSlash (t ++ "/" ++ q ++ "/" ++ name)) = some q := by
    have h := slice_mid (t.data ++ ['/']) q.data ('/' :: name.data)
    have e1 : (t ++ "/" ++ q ++ "/" ++ name : String) =
        ⟨t.data ++ ['/'] ++ q.data ++ '/' :: name.data⟩ := String.ext (by simp [data_slash])
    have e2 : len (t ++ "/") = (t.data ++ ['/']).length := by simp [len, data_slash]
    rw [hlast, e2, e1]
    exact h
  have hsuf : ∀ suf : String, '/' ∉ suf.data →
      hasSuffix (t ++ "/" ++ q ++ "/" ++ name) suf = hasSuffix name suf := by
    intro suf hs
    simp only [hasSuffix, hdata]
    exact isSuffixOf_below_slash _ _ _ hs
  simp only [unusedVisit, if_neg hne, hslice, Bool.not_false, if_true,
    hsuf "_test.go" (by decide), hsuf ".go" (by decide)]
  by_cases hc : (hasSuffix name "_test.go" ||
      hasSuffix name ".go" && !decide (q ∈ imports)) = true
  · rw [if_pos hc]
    have hc' : hasSuffix name "_test.go" = true ∨ (hasSuffix name ".go" = true ∧ q ∉ imports) := by
      simpa using hc
    rcases sys with _ | _ | _ <;> exact ⟨_, rfl, by simp [hc']⟩
  · rw [if_neg hc]
    have hc' : ¬ (hasSuffix name "_test.go" = true ∨
        (hasSuffix name ".go" = true ∧ q ∉ imports)) := by
      simpa using hc
    exact ⟨_, rfl, by simp only [Bool.false_eq_true, false_iff]; exact hc'⟩

theorem unusedVisit_root_file (imports : Packages) (t name : String) (sys : Option SysErr)
    (hname : '/' ∉ name.data) :
    unusedVisit imports t (t ++ "/" ++ name) false none sys = none := by
  have hlast : lastIndexSlash (t ++ "/" ++ name) = (t.data.length : Int) := by
    have hdata : (t ++ "/" ++ name).data = t.data ++ '/' :: name.data := by simp [data_slash]
    rw [lastIndexSlash, hdata, lastIndexChars_append_cons '/' _ _ hname]
  have hslice : slice (t ++ "/" ++ name) (len (t ++ "/")) (lastIndexSlash (t ++ "/" ++ name)) =
      none := by
    rw [slice, if_neg]
    rw [hlast]
    simp only [len, String.data_append, data_slash, List.length_append, List.length_singleton]
    push_cast
    omega
  simp only [unusedVisit, if_neg (childPath_ne t name), hslice, Bool.not_false, if_true]

/-- C3. A regular file directly in the target root: the slice
`path[len(targetDir+"/") : strings.LastIndex(path, "/")]` has its low bound
(7 for `vendor/x_test.go`) above its high bound (6), so the walk function does
not reach a decision (Go panics), whatever the Closure and for a test file too.
This holds for every target directory and every file name; one directory
further down the file is decided by the rule of the claim. -/
theorem removeUnusedImports_root_file_out_of_range (imports : Packages)
    (sys : Option SysErr) :
    unusedVisit imports "vendor" "vendor/x_test.go" false none sys = none ∧
      slice "vendor/x_test.go" (len ("vendor" ++ "/")) (lastIndexSlash "vendor/x_test.go") = none ∧
      (len ("vendor" ++ "/") : Int) = 7 ∧ lastIndexSlash "vendor/x_test.go" = 6 ∧
      (∀ targetDir name : String, '/' ∉ name.data →
        unusedVisit imports targetDir (targetDir ++ "/" ++ name) false none sys = none) ∧
      (∀ targetDir q name : String, '/' ∉ name.data →
        ∃ v, unusedVisit imports targetDir (targetDir ++ "/" ++ q ++ "/" ++ name) false none sys =
            some v ∧
          (v.removeCalled = true ↔
            hasSuffix name "_test.go" = true ∨ (hasSuffix name ".go" = true ∧ q ∉ imports))) := by
  have h : unusedVisit imports "vendor" "vendor/x_test.go" false none sys = none :=
    unusedVisit_root_file imports "vendor" "x_test.go" sys (by decide)
  exact ⟨h, by decide, by decide, by decide,
    fun targetDir name hn => unusedVisit_root_file imports targetDir name sys hn,
    fun targetDir q name hn => unusedVisit_file_rule imports targetDir q name sys hn⟩

/-- C4. The directory rule does not reach every directory. In the vendor tree
`rootFileVendor` the regular file `vendor/modules.txt` makes the walk function
take the slice `path[7:6]` and the program dies there: the directory `vendor/zz`
that comes later is neither a member of the Closure nor a prefix of one, the
walk function would remove it, and it stays; without the file it is removed.
With the target directory written `./vendor`, `filepath.Walk` hands in the
cleaned path `vendor/github.com`, the slice `path[len(targetDir+"/"):]` gives
`thub.com`, and the directory is removed although `github.com` is a prefix of a
member. -/
theorem removeUnusedImports_misses_directories :
    removeUnusedImports {"github.com/foo/bar"} "vendor" (fun _ => false) rootFileVendor =
        (rootFileVendor, .crashed) ∧
      "zz" ∉ ({"github.com/foo/bar"} : Packages) ∧
      "zz" ∉ importsParents {"github.com/foo/bar"} ∧
      unusedVisit {"github.com/foo/bar"} "vendor" "vendor/zz" true none none =
        some ⟨true, .skipDir⟩ ∧
      removeUnusedImports {"github.com/foo/bar"} "vendor" (fun _ => false)
          [.dir "github.com" [.dir "foo" [.dir "bar" [.file "bar.go"]]],
            .dir "zz" [.file "z.go"]] =
        ([.dir "github.com" [.dir "foo" [.dir "bar" [.file "bar.go"]]]], .done) ∧
      filepathJoin "./vendor" "github.com" = "vendor/github.com" ∧
      sliceFrom "vendor/github.com" (len ("./vendor" ++ "/")) = some "thub.com" ∧
      "github.com" ∈ importsParents {"github.com/foo/bar"} ∧
      unusedVisit {"github.com/foo/bar"} "./vendor" "vendor/github.com" true none none =
        some ⟨true, .skipDir⟩ := by
  decide

end Prune
